import Mathlib

/-!
A verification model of the primary-key update engine of the StarRocks
storage layer (tablet version history, commit/apply pipeline, delete
handling, expired-version GC, snapshot/clone, compaction scoring and the
horizontal/vertical rowset merger), together with proofs of the testable
properties stated in the specification.

The engine itself (`storage/tablet_updates.cpp`, `storage/vectorized/
rowset_merger.cpp`, `storage/snapshot_manager.cpp`) is not part of the
source sample; only its tests (`storage/tablet_updates_test.cpp`,
`storage/vectorized/rowset_merger_test.cpp`) and the specification are.
The definitions below are therefore modelled from the spec, and the
concrete scenarios exercised by the tests are replayed against the model
to check that it reproduces the observable behaviour the tests assert.
-/

namespace StarRocks

/-! ## Generic list helpers -/

/-- Split a list into consecutive chunks of size `n` (the merger writes its
output in fixed-size batches of `chunk_size` rows). A degenerate chunk size
of zero yields the whole list as one chunk. -/
def chunksOf (n : Nat) (l : List α) : List (List α) :=
  go (l.length) l
where
  /-- Fuel-bounded worker; the fuel is an upper bound on the input length. -/
  go : Nat → List α → List (List α)
  | _, [] => []
  | 0, l => [l]
  | fuel + 1, l =>
    if n = 0 then [l] else (l.take n) :: go fuel (l.drop n)

/-! ## The primary key map

`PkMap` models the tablet's primary key index joined with the live row
data: a list of entries `(key, segment, value)` kept strictly sorted by
key, mapping each live primary key to the rowset ("segment") holding its
latest visible value. The spec: "Primary Key Index: mapping key ->
(rowset_segment_id, row_ordinal) for the latest visible value of each
key; mutated only by the apply worker". -/

/-- The primary-key state: entries `(key, owning segment, value)`, sorted
strictly by key. -/
abbrev PkMap (V : Type) := List (Int × Nat × V)

/-- Keys of a primary-key state, in order. -/
def keysOf (m : PkMap V) : List Int := m.map (·.1)

/-- Insert or replace the entry for key `k`, keeping the list sorted by
key. An upsert whose key collides with an existing row supersedes that
row (newest write wins). -/
def pkUpsert (m : PkMap V) (k : Int) (s : Nat) (v : V) : PkMap V :=
  match m with
  | [] => [(k, s, v)]
  | e :: t =>
    if k < e.1 then (k, s, v) :: e :: t
    else if k = e.1 then (k, s, v) :: t
    else e :: pkUpsert t k s v

/-- Remove the entry for key `k`, if present (an explicit delete marker
drops the PK index entry). -/
def pkErase (m : PkMap V) (k : Int) : PkMap V :=
  m.filter (fun e => decide (e.1 ≠ k))

/-- The segment currently holding key `k`, if any. -/
def lookupSeg (m : PkMap V) (k : Int) : Option Nat :=
  (m.find? (fun e => e.1 == k)).map (fun e => e.2.1)

/-- Apply a batch of explicit delete markers, in order. -/
def foldDel (m : PkMap V) (ds : List Int) : PkMap V :=
  ds.foldl pkErase m

/-- Apply a batch of upserts originating from segment `s`, in ordinal
order (duplicate keys within one batch: last applied wins). -/
def foldUps (m : PkMap V) (s : Nat) (us : List (Int × V)) : PkMap V :=
  us.foldl (fun m kv => pkUpsert m kv.1 s kv.2) m

/-! ## Rowsets and the apply step -/

/-- An immutable committed write batch: a list of upserted rows (primary
key plus non-key value) and an optional explicit delete list (a column of
keys-to-delete accompanying the upsert batch). -/
structure Rowset (V : Type) where
  upserts : List (Int × V)
  deletes : List Int
deriving DecidableEq

/-- Apply one rowset, as segment `s`, to the primary-key state. Per the
spec, deletes are processed before inserts from the same rowset, so that
a simultaneous delete+insert of the same key resolves to the insert
surviving. -/
def applyRowset (m : PkMap V) (s : Nat) (rs : Rowset V) : PkMap V :=
  foldUps (foldDel m rs.deletes) s rs.upserts

/-- Segments whose rows are superseded or deleted by applying `rs`
against state `m`: these are the segments whose delete vectors gain a new
generation at the applying version. (Lookups are made against the
pre-apply state.) -/
def affectedSegs (m : PkMap V) (rs : Rowset V) : List Nat :=
  (rs.deletes ++ rs.upserts.map (·.1)).filterMap (lookupSeg m)

/-- Fold a list of rowsets over a base state, numbering segments from
`i`. -/
def pkStateAux (m : PkMap V) (i : Nat) : List (Rowset V) → PkMap V
  | [] => m
  | rs :: rest => pkStateAux (applyRowset m i rs) (i + 1) rest

/-- The primary-key state obtained by applying the given rowsets, in
version order, over a base image. -/
def pkState (base : PkMap V) (rss : List (Rowset V)) : PkMap V :=
  pkStateAux base 0 rss

/-! ## The tablet

State of one tablet's update engine. Versions are the major version
numbers (a fresh tablet is at version 1). `baseVer`/`baseContent` is the
collapsed image below the first retained rowset (a fresh tablet has an
empty image at version 1; a full-snapshot clone installs the snapshot
content as a new base). `rowsets` holds the applied rowsets; the rowset
at index `i` carries version `baseVer + 1 + i`. `pending` is the ordered
queue of committed-but-not-yet-applied versions. `gens` records the
existing delete-vector generations as `(segment index, version)` pairs;
`remove_expired_versions` prunes old generations. -/
structure Tablet (V : Type) where
  tid : Nat
  shash : Nat
  baseVer : Nat
  baseContent : PkMap V
  rowsets : List (Rowset V)
  pending : List (Nat × Rowset V)
  retainedFrom : Nat
  historyCount : Nat
  gens : List (Nat × Nat)
  lastCompaction : Nat

/-- A freshly created tablet: version 1, empty, one history entry. -/
def initTablet (tid shash : Nat) : Tablet V :=
  ⟨tid, shash, 1, [], [], [], 1, 1, [], 0⟩

/-- The latest applied, gap-free version. -/
def max_version (t : Tablet V) : Nat :=
  t.baseVer + t.rowsets.length

/-- Number of retained (non-expired) versions. -/
def version_history_count (t : Tablet V) : Nat :=
  t.historyCount

/-- Number of committed-but-unapplied pending versions. -/
def num_pending (t : Tablet V) : Nat :=
  t.pending.length

/-- Version numbers currently pending, in queue order. -/
def pendingVers (t : Tablet V) : List Nat := t.pending.map (·.1)

/-- Current full primary-key state of the tablet. -/
def pkStateT (t : Tablet V) : PkMap V :=
  pkState t.baseContent t.rowsets

/-- Primary-key state visible at version `v` (rowsets with version at
most `v` applied over the base image). -/
def contentAt (t : Tablet V) (v : Nat) : PkMap V :=
  pkState t.baseContent (t.rowsets.take (v - t.baseVer))

/-- The live rows visible at version `v`: sorted by primary key, each key
with its latest visible value. -/
def liveRows (t : Tablet V) (v : Nat) : List (Int × V) :=
  (contentAt t v).map (fun e => (e.1, e.2.2))

/-- Version `v` is addressable by readers: not expired, not collapsed
below the base image, not beyond the last applied version. -/
def validVersion (t : Tablet V) (v : Nat) : Prop :=
  t.retainedFrom ≤ v ∧ t.baseVer ≤ v ∧ v ≤ max_version t

instance (t : Tablet V) (v : Nat) : Decidable (validVersion t v) := by
  unfold validVersion; infer_instance

/-- Read the tablet at version `v`: the number of live rows, or `none`
(the explicit error the tests render as `-1`) when the version is not
addressable. -/
def read_tablet (t : Tablet V) (v : Nat) : Option Nat :=
  if validVersion t v then some (contentAt t v).length else none

/-- Apply one rowset at version `max_version t + 1`: advance the version
history, update the primary-key state and record the new delete-vector
generations (one for each superseded segment, and an initial one for the
rowset's own new segment). -/
def applyOne (t : Tablet V) (rs : Rowset V) : Tablet V :=
  { t with
    rowsets := t.rowsets ++ [rs],
    historyCount := t.historyCount + 1,
    gens := t.gens
      ++ ((affectedSegs (pkStateT t) rs).dedup).map (fun s => (s, max_version t + 1))
      ++ [(t.rowsets.length, max_version t + 1)] }

/-- Fuel-bounded apply loop: repeatedly pop the smallest pending
version number while it is exactly `max_version + 1`; a non-contiguous
smallest pending entry waits (is not applied out of order). -/
def drainFuel : Nat → Tablet V → Tablet V
  | 0, t => t
  | fuel + 1, t =>
    match t.pending with
    | [] => t
    | (v, rs) :: rest =>
      if v = max_version t + 1 then drainFuel fuel (applyOne { t with pending := rest } rs)
      else t

/-- Run the apply worker until the smallest pending version is not
contiguous (or no pending version remains). -/
def drain (t : Tablet V) : Tablet V :=
  drainFuel t.pending.length t

/-- Insert a pending entry into the version-ordered pending queue. -/
def insertPend (p : Nat × Rowset V) : List (Nat × Rowset V) → List (Nat × Rowset V)
  | [] => [p]
  | q :: rest => if p.1 < q.1 then p :: q :: rest else q :: insertPend p rest

/-- Commit a rowset for version `v`: enqueue it as a pending version
(out-of-order version numbers accepted; duplicates are deduplicated by
version number and no-op) and let the apply worker drain every
now-contiguous pending version. -/
def rowset_commit (t : Tablet V) (v : Nat) (rs : Rowset V) : Tablet V :=
  if v ≤ max_version t ∨ v ∈ pendingVers t then t
  else drain { t with pending := insertPend (v, rs) t.pending }

/-- Commit a whole sequence of `(version, rowset)` pairs, in order. -/
def commitAll (t : Tablet V) (cs : List (Nat × Rowset V)) : Tablet V :=
  cs.foldl (fun t p => rowset_commit t p.1 p.2) t

/-! ## Expired-version GC and iterators -/

/-- Largest delete-vector generation of segment `s` with version at most
`v` (0 when none exists; real versions are at least 2). -/
def maxGenLE (gens : List (Nat × Nat)) (s v : Nat) : Nat :=
  ((gens.filter (fun g => g.1 == s && decide (g.2 ≤ v))).map (·.2)).foldl Nat.max 0

/-- Largest delete-vector generation of segment `s` strictly below `r`
(0 when none exists). -/
def maxGenLT (gens : List (Nat × Nat)) (s r : Nat) : Nat :=
  ((gens.filter (fun g => g.1 == s && decide (g.2 < r))).map (·.2)).foldl Nat.max 0

/-- Prune delete-vector generations when every version below `r` expires:
per segment, generations strictly older than the newest generation below
`r` can no longer be needed by any retained reader and are dropped;
newer generations are kept. (The repository's test remarks that the
delete vector superseding an expired version "is still valid" for an
already-open reader.) -/
def pruneGens (gens : List (Nat × Nat)) (r : Nat) : List (Nat × Nat) :=
  gens.filter (fun g => decide (r ≤ g.2) || g.2 == maxGenLT gens g.1 r)

/-- Drop all history entries older than the retention threshold (the
tests pass the current time, expiring everything), keeping at least the
latest version; prune the delete-vector generations accordingly. The
applied rowsets, pending queue and `max_version` are untouched. -/
def remove_expired_versions (t : Tablet V) (_now : Nat) : Tablet V :=
  { t with
    retainedFrom := max_version t,
    historyCount := 1,
    gens := pruneGens t.gens (max_version t) }

/-- A reader opened at a version: it captures the version, the row count
visible at it, and, per segment it covers, the delete-vector generation
it needs. -/
structure TabIter where
  ver : Nat
  cnt : Nat
  needed : List (Nat × Nat)
deriving DecidableEq

/-- The delete-vector generations a reader at version `v` depends on:
for each segment whose version is at most `v`, the newest generation at
most `v`. -/
def neededGens (t : Tablet V) (v : Nat) : List (Nat × Nat) :=
  (List.range (v - t.baseVer)).map (fun i => (i, maxGenLE t.gens i v))

/-- Open an iterator at version `v` (fails, like the read path, when the
version is not addressable). -/
def openIter (t : Tablet V) (v : Nat) : Option TabIter :=
  if validVersion t v then some ⟨v, (contentAt t v).length, neededGens t v⟩ else none

/-- Read a previously opened iterator against the tablet's current
state: succeeds with the captured row count while every delete-vector
generation it needs still exists, otherwise fails explicitly. -/
def readIter (t : Tablet V) (it : TabIter) : Option Nat :=
  if it.needed.all (fun g => decide (g ∈ t.gens)) then some it.cnt else none

/-! ## Persistent meta -/

/-- The persisted image of a tablet in the KV meta store. -/
structure TabletMeta (V : Type) where
  tid : Nat
  shash : Nat
  baseVer : Nat
  baseContent : PkMap V
  rowsets : List (Rowset V)
  pending : List (Nat × Rowset V)
  retainedFrom : Nat
  historyCount : Nat
  gens : List (Nat × Nat)
  lastCompaction : Nat

/-- Serialize the tablet state (version-advance records plus pending
rowsets) into the meta store. -/
def save_meta (t : Tablet V) : TabletMeta V :=
  ⟨t.tid, t.shash, t.baseVer, t.baseContent, t.rowsets, t.pending,
   t.retainedFrom, t.historyCount, t.gens, t.lastCompaction⟩

/-- Reconstruct a tablet instance from its persisted meta. -/
def load_from_store (m : TabletMeta V) : Tablet V :=
  ⟨m.tid, m.shash, m.baseVer, m.baseContent, m.rowsets, m.pending,
   m.retainedFrom, m.historyCount, m.gens, m.lastCompaction⟩

/-! ## Snapshot, clone -/

/-- Error taxonomy of the state-transfer operations relevant here. -/
inductive LoadErr where
  | mismatchedTabletId
  | segmentFileMissing
deriving DecidableEq

/-- A serialized snapshot. A full snapshot carries the complete content
at a target version; an incremental one carries a set of already
committed versions. Both reference segment files by id and name the
source tablet identity. -/
inductive SnapshotMeta (V : Type) where
  | full (tid shash ver : Nat) (content : PkMap V) (files : List Nat)
  | incremental (tid shash : Nat) (rowsets : List (Nat × Rowset V)) (files : List Nat)

/-- Tablet id recorded in a snapshot. -/
def SnapshotMeta.mtid : SnapshotMeta V → Nat
  | .full tid _ _ _ _ => tid
  | .incremental tid _ _ _ => tid

/-- Schema hash recorded in a snapshot. -/
def SnapshotMeta.mshash : SnapshotMeta V → Nat
  | .full _ shash _ _ _ => shash
  | .incremental _ shash _ _ => shash

/-- Segment files referenced by a snapshot. -/
def SnapshotMeta.mfiles : SnapshotMeta V → List Nat
  | .full _ _ _ _ fs => fs
  | .incremental _ _ _ fs => fs

/-- Install a snapshot on a destination tablet holding the segment files
`destFiles`. Identity is validated before anything else; then every
referenced segment file must exist on the destination; only then is the
destination mutated. A full snapshot becomes a brand-new one-entry
version history (pending versions above the snapshot version are kept
and re-applied); an incremental snapshot re-commits its versions,
versions already present being skipped as no-ops. On error the
destination state is returned untouched. -/
def load_snapshot (t : Tablet V) (destFiles : List Nat) (m : SnapshotMeta V) :
    Option LoadErr × Tablet V :=
  if m.mtid ≠ t.tid ∨ m.mshash ≠ t.shash then (some LoadErr.mismatchedTabletId, t)
  else if (m.mfiles).any (fun f => decide (f ∉ destFiles)) then
    (some LoadErr.segmentFileMissing, t)
  else
    match m with
    | .full _ _ ver content _ =>
      (none, drain { t with
        baseVer := ver, baseContent := content, rowsets := [],
        pending := t.pending.filter (fun p => decide (ver < p.1)),
        retainedFrom := ver, historyCount := 1, gens := [] })
    | .incremental _ _ rss _ =>
      (none, rss.foldl (fun t p => rowset_commit t p.1 p.2) t)

/-- Take a full snapshot of `s` at version `v`, already rewritten (as the
clone helper of the test does) to the destination identity `tid`/`shash`,
referencing the files `fs`. -/
def snapshot_full (s : Tablet V) (v : Nat) (tid shash : Nat) (fs : List Nat) :
    SnapshotMeta V :=
  SnapshotMeta.full tid shash v (contentAt s v) fs

/-- Full clone, as the tests drive it: take a full snapshot of the source
at `v`, rewrite its identity to the destination's, link its files to the
destination and load it; expired versions are collected afterwards. -/
def full_clone (src dst : Tablet V) (v : Nat) (fs : List Nat) :
    Option LoadErr × Tablet V :=
  let r := load_snapshot dst fs (snapshot_full src v dst.tid dst.shash fs)
  (r.1, if r.1 = none then remove_expired_versions r.2 0 else r.2)

/-! ## Compaction scoring -/

/-- Minimum interval between two compactions of one tablet, in seconds
(cooldown preventing compaction thrashing). Modelled from the spec:
"immediately after a compaction the score is forced negative until a
minimum cooldown interval elapses". -/
def updateCompactionInterval : Nat := 300

/-- Total rows ever written into the currently retained rowsets. -/
def rowsWritten (t : Tablet V) : Nat :=
  t.baseContent.length + (t.rowsets.map (fun rs => rs.upserts.length)).sum

/-- Rows still live. -/
def liveCount (t : Tablet V) : Nat := (pkStateT t).length

/-- Accumulated deletions: rows written but no longer live (superseded
by a newer value or deleted). -/
def delCount (t : Tablet V) : Nat := rowsWritten t - liveCount t

/-- Compaction candidate score. Modelled from the spec: "score =
f(number of rowsets, deletion ratio, time since last compaction); a
tablet is not a candidate if score ≤ 0, and immediately after a
compaction the score is forced negative until a minimum cooldown
interval elapses". Within cooldown the score is -1; otherwise a tablet
whose accumulated deletions reach half of the rows written scores
positive even with few rowsets, and a tablet needs several rowsets to
score positive without deletions. -/
def get_compaction_score (t : Tablet V) (now : Nat) : Int :=
  if now < t.lastCompaction + updateCompactionInterval then -1
  else if 0 < delCount t ∧ rowsWritten t ≤ 2 * delCount t then
    (t.rowsets.length : Int) + 1
  else (t.rowsets.length : Int) - 2

/-- Run a compaction at time `now`: merge every retained rowset into a
single replacement image holding exactly the live rows (the collapsed
base), producing one new minor-version step — `max_version` is unchanged
— and start the cooldown. -/
def compaction (t : Tablet V) (now : Nat) : Tablet V :=
  { t with
    baseVer := max_version t,
    baseContent := pkStateT t,
    rowsets := [],
    historyCount := t.historyCount + 1,
    gens := [],
    lastCompaction := now }

/-! ## The rowset merger

Both compaction algorithms drain their inputs through the same k-way
merge keyed on the primary key (ties broken by the highest source
version, i.e. the newest write wins). The horizontal algorithm carries
full rows through the merge and writes them in `chunk_size` batches; the
vertical algorithm first merges only the key column, establishing the
surviving row order as `(source rowset, ordinal)` pairs, then streams
each non-key column group (at most `max_columns_per_group` columns per
pass) through that order. -/

/-- Smallest head key among the input streams. -/
def minHeadKey (ls : List (List (Int × α))) : Option Int :=
  ls.foldr
    (fun l acc =>
      match l.head? with
      | none => acc
      | some e =>
        match acc with
        | none => some e.1
        | some k => some (min e.1 k))
    none

/-- Payload of the winning stream for key `k`: among the streams whose
head key is `k`, the last (newest source version) wins. -/
def winner (ls : List (List (Int × α))) (k : Int) : Option α :=
  ls.foldl
    (fun acc l =>
      match l.head? with
      | some e => if e.1 = k then some e.2 else acc
      | none => acc)
    none

/-- Pop every head row carrying key `k` (the winner is emitted, the
superseded rows are discarded). -/
def popKey (ls : List (List (Int × α))) (k : Int) : List (List (Int × α)) :=
  ls.map (fun l =>
    match l with
    | [] => []
    | e :: rest => if e.1 = k then rest else e :: rest)

/-- Total number of rows across the input streams. -/
def totalLen (ls : List (List β)) : Nat := (ls.map List.length).sum

/-- Fuel-bounded k-way merge loop. -/
def kMergeAux (fuel : Nat) (ls : List (List (Int × α))) : List (Int × α) :=
  match fuel with
  | 0 => []
  | fuel + 1 =>
    match minHeadKey ls with
    | none => []
    | some k =>
      match winner ls k with
      | none => []
      | some a => (k, a) :: kMergeAux fuel (popKey ls k)

/-- K-way merge of the input streams by primary key, deduplicating equal
keys in favour of the newest source. -/
def kMerge (ls : List (List (Int × α))) : List (Int × α) :=
  kMergeAux (totalLen ls) ls

/-- Horizontal merge: full rows through the k-way merge, written in
`chunk_size` row batches. -/
def horizontal_merge_chunks (inputs : List (List (Int × List Int))) (chunkSize : Nat) :
    List (List (Int × List Int)) :=
  chunksOf chunkSize (kMerge inputs)

/-- Tag each row of one input stream with its `(source, ordinal)`
location, keeping only the key column. -/
def tagList (i j : Nat) : List (Int × List Int) → List (Int × Nat × Nat)
  | [] => []
  | p :: rest => (p.1, i, j) :: tagList i (j + 1) rest

/-- Tag every input stream, numbering sources from `i`. -/
def tagAll (i : Nat) : List (List (Int × List Int)) → List (List (Int × Nat × Nat))
  | [] => []
  | l :: ls => tagList i 0 l :: tagAll (i + 1) ls

/-- The full row stored at location `(source, ordinal)`. -/
def rowAt (inputs : List (List (Int × List Int))) (loc : Nat × Nat) : List Int :=
  ((inputs.getD loc.1 []).getD loc.2 (0, [])).2

/-- Vertical merge, pass one: merge only the key columns, establishing
the surviving keys and their source row order, written in `chunk_size`
batches. -/
def vertical_key_chunks (inputs : List (List (Int × List Int))) (chunkSize : Nat) :
    List (List (Int × Nat × Nat)) :=
  chunksOf chunkSize (kMerge (tagAll 0 inputs))

/-- Vertical merge, later passes: gather one column through the row
order established by pass one. -/
def vColumn (inputs : List (List (Int × List Int))) (order : List (Nat × Nat)) (c : Nat) :
    List Int :=
  order.map (fun loc => (rowAt inputs loc).getD c 0)

/-- Vertical merge, later passes: the non-key columns are split into
groups of at most `maxPerGroup` columns and each group is streamed
independently through the pass-one row order. -/
def vertical_column_groups (inputs : List (List (Int × List Int)))
    (order : List (Nat × Nat)) (ncols maxPerGroup : Nat) : List (List (List Int)) :=
  (chunksOf maxPerGroup (List.range ncols)).map (fun g => g.map (vColumn inputs order))

/-- The per-rowset live-row streams a compaction at the current version
reads: for each segment, its rows still live in the primary-key state,
in key order. -/
def liveInputs (t : Tablet (List Int)) : List (List (Int × List Int)) :=
  (List.range t.rowsets.length).map
    (fun i => ((pkStateT t).filter (fun e => e.2.1 == i)).map (fun e => (e.1, e.2.2)))

/-- Rewrite every row's payload of every input stream, keeping the keys:
the shape shared by the two merge algorithms (the horizontal one carries
full row payloads, the vertical one carries `(source, ordinal)`
locations). -/
def mapPayload (φ : α → β) (ls : List (List (Int × α))) : List (List (Int × β)) :=
  ls.map (List.map (fun e => (e.1, φ e.2)))

/-! ## Concrete test fixtures

The tests write rows whose non-key columns are derived from the key
(`v1 = key % 100 + 1`, `v2 = key % 1000 + 2`); for the tablet-level
claims only the key and some value matter. -/

/-- A rowset of plain inserts for the given keys. -/
def keyRowset (ks : List Int) : Rowset Int := ⟨ks.map (fun k => (k, k)), []⟩

/-- A rowset carrying upserts together with an explicit delete list. -/
def keyRowsetD (ks ds : List Int) : Rowset Int := ⟨ks.map (fun k => (k, k)), ds⟩

/-! ## Lemmas: the primary-key map -/

/-- Entries of a primary-key state are pairwise strictly increasing in
key. -/
def sortedPk (m : PkMap V) : Prop :=
  List.Pairwise (fun a b : Int × Nat × V => a.1 < b.1) m

theorem mem_keysOf {m : PkMap V} {a : Int} :
    a ∈ keysOf m ↔ ∃ e ∈ m, e.1 = a := by
  simp [keysOf]

theorem mem_pkUpsert {m : PkMap V} {k : Int} {s : Nat} {v : V} {e : Int × Nat × V}
    (h : e ∈ pkUpsert m k s v) : e = (k, s, v) ∨ e ∈ m := by
  induction m with
  | nil => simpa [pkUpsert] using h
  | cons f t ih =>
    unfold pkUpsert at h
    by_cases h1 : k < f.1
    · simp only [if_pos h1, List.mem_cons] at h
      rcases h with h | h | h
      · exact Or.inl h
      · exact Or.inr (by simp [h])
      · exact Or.inr (List.mem_cons_of_mem _ h)
    · by_cases h2 : k = f.1
      · simp only [if_neg h1, if_pos h2, List.mem_cons] at h
        rcases h with h | h
        · exact Or.inl h
        · exact Or.inr (List.mem_cons_of_mem _ h)
      · simp only [if_neg h1, if_neg h2, List.mem_cons] at h
        rcases h with h | h
        · exact Or.inr (by simp [h])
        · rcases ih h with h | h
          · exact Or.inl h
          · exact Or.inr (List.mem_cons_of_mem _ h)

theorem keysOf_pkUpsert {m : PkMap V} {k : Int} {s : Nat} {v : V} {a : Int} :
    a ∈ keysOf (pkUpsert m k s v) ↔ a = k ∨ a ∈ keysOf m := by
  induction m with
  | nil => simp [pkUpsert, keysOf]
  | cons f t ih =>
    unfold pkUpsert
    by_cases h1 : k < f.1
    · simp [if_pos h1, keysOf, or_assoc]
    · by_cases h2 : k = f.1
      · subst h2
        rw [if_neg h1, if_pos rfl]
        simp only [keysOf, List.map_cons, List.mem_cons]
        tauto
      · simp only [if_neg h1, if_neg h2]
        simp only [keysOf, List.map_cons, List.mem_cons] at ih ⊢
        rw [ih]
        tauto

theorem sortedPk_pkUpsert {m : PkMap V} {k : Int} {s : Nat} {v : V}
    (h : sortedPk m) : sortedPk (pkUpsert m k s v) := by
  induction m with
  | nil => simp [pkUpsert, sortedPk]
  | cons f t ih =>
    rw [sortedPk, List.pairwise_cons] at h
    unfold pkUpsert
    by_cases h1 : k < f.1
    · rw [if_pos h1]
      refine List.Pairwise.cons ?_ (List.Pairwise.cons h.1 h.2)
      intro e he
      rcases List.mem_cons.mp he with rfl | he
      · exact h1
      · exact lt_trans h1 (h.1 e he)
    · by_cases h2 : k = f.1
      · rw [if_neg h1, if_pos h2]
        refine List.Pairwise.cons ?_ h.2
        intro e he
        exact h2 ▸ h.1 e he
      · rw [if_neg h1, if_neg h2]
        refine List.Pairwise.cons ?_ (ih h.2)
        intro e he
        rcases mem_pkUpsert he with rfl | he
        · exact lt_of_le_of_ne (not_lt.mp h1) (fun hh => h2 hh.symm)
        · exact h.1 e he

theorem length_pkUpsert_of_mem {m : PkMap V} {k : Int} {s : Nat} {v : V}
    (hs : sortedPk m) (h : k ∈ keysOf m) :
    (pkUpsert m k s v).length = m.length := by
  induction m with
  | nil => simp [keysOf] at h
  | cons f t ih =>
    rw [sortedPk, List.pairwise_cons] at hs
    unfold pkUpsert
    by_cases h1 : k < f.1
    · exfalso
      simp only [keysOf, List.map_cons, List.mem_cons] at h
      rcases h with rfl | h
      · exact lt_irrefl _ h1
      · rcases mem_keysOf.mp h with ⟨e, he, rfl⟩
        exact absurd (hs.1 e he) (by exact fun hh => lt_asymm h1 hh)
    · by_cases h2 : k = f.1
      · simp [if_neg h1, if_pos h2]
      · rw [if_neg h1, if_neg h2]
        simp only [List.length_cons]
        have hk : k ∈ keysOf t := by
          simp only [keysOf, List.map_cons, List.mem_cons] at h
          exact h.resolve_left h2
        rw [ih hs.2 hk]

theorem length_pkUpsert_of_not_mem {m : PkMap V} {k : Int} {s : Nat} {v : V}
    (h : k ∉ keysOf m) :
    (pkUpsert m k s v).length = m.length + 1 := by
  induction m with
  | nil => simp [pkUpsert]
  | cons f t ih =>
    simp only [keysOf, List.map_cons, List.mem_cons, not_or] at h
    unfold pkUpsert
    by_cases h1 : k < f.1
    · simp [if_pos h1]
    · rw [if_neg h1, if_neg h.1]
      simp only [List.length_cons]
      rw [ih h.2]

theorem mem_pkErase {m : PkMap V} {k : Int} {e : Int × Nat × V} :
    e ∈ pkErase m k ↔ e ∈ m ∧ e.1 ≠ k := by
  simp [pkErase, List.mem_filter]

theorem keysOf_pkErase {m : PkMap V} {k a : Int} :
    a ∈ keysOf (pkErase m k) ↔ a ∈ keysOf m ∧ a ≠ k := by
  constructor
  · intro h
    rcases mem_keysOf.mp h with ⟨e, he, rfl⟩
    rcases mem_pkErase.mp he with ⟨hm, hk⟩
    exact ⟨mem_keysOf.mpr ⟨e, hm, rfl⟩, hk⟩
  · rintro ⟨h, hk⟩
    rcases mem_keysOf.mp h with ⟨e, he, rfl⟩
    exact mem_keysOf.mpr ⟨e, mem_pkErase.mpr ⟨he, hk⟩, rfl⟩

theorem sortedPk_pkErase {m : PkMap V} {k : Int} (h : sortedPk m) :
    sortedPk (pkErase m k) :=
  h.sublist (List.filter_sublist m)

theorem pkErase_of_not_mem {m : PkMap V} {k : Int} (h : k ∉ keysOf m) :
    pkErase m k = m := by
  rw [pkErase, List.filter_eq_self]
  intro e he
  simp only [decide_eq_true_eq]
  exact fun hh => h (mem_keysOf.mpr ⟨e, he, hh⟩)

theorem length_pkErase_of_mem {m : PkMap V} {k : Int}
    (hs : sortedPk m) (h : k ∈ keysOf m) :
    (pkErase m k).length + 1 = m.length := by
  induction m with
  | nil => simp [keysOf] at h
  | cons f t ih =>
    rw [sortedPk, List.pairwise_cons] at hs
    simp only [keysOf, List.map_cons, List.mem_cons] at h
    by_cases h2 : f.1 = k
    · have ht : k ∉ keysOf t := by
        intro hk
        rcases mem_keysOf.mp hk with ⟨e, he, rfl⟩
        exact absurd (hs.1 e he) (by rw [h2]; exact lt_irrefl _)
      simp only [pkErase, List.filter_cons, decide_eq_true_eq]
      rw [if_neg (by simp [h2])]
      have := pkErase_of_not_mem (m := t) ht
      rw [pkErase] at this
      rw [this, List.length_cons]
    · have hk : k ∈ keysOf t := h.resolve_left (fun hh => h2 hh.symm)
      simp only [pkErase, List.filter_cons, decide_eq_true_eq]
      rw [if_pos (by simp [h2])]
      simp only [List.length_cons]
      have := ih hs.2 hk
      rw [pkErase] at this
      omega

/-! ## Lemmas: delete batches and upsert batches -/

theorem foldDel_eq_filter (m : PkMap V) (ds : List Int) :
    foldDel m ds = m.filter (fun e => decide (e.1 ∉ ds)) := by
  induction ds generalizing m with
  | nil => simp [foldDel]
  | cons d rest ih =>
    show foldDel (pkErase m d) rest = _
    rw [ih, pkErase, List.filter_filter]
    apply List.filter_congr
    intro e _
    simp only [List.mem_cons, decide_eq_true_eq, decide_not]
    by_cases h1 : e.1 = d <;> by_cases h2 : e.1 ∈ rest <;> simp [h1, h2]

theorem mem_foldDel {m : PkMap V} {ds : List Int} {e : Int × Nat × V} :
    e ∈ foldDel m ds ↔ e ∈ m ∧ e.1 ∉ ds := by
  rw [foldDel_eq_filter]
  simp [List.mem_filter]

theorem sortedPk_foldDel {m : PkMap V} {ds : List Int} (h : sortedPk m) :
    sortedPk (foldDel m ds) := by
  rw [foldDel_eq_filter]
  exact h.sublist (List.filter_sublist m)

theorem foldDel_idem (m : PkMap V) (ds : List Int) :
    foldDel (foldDel m ds) ds = foldDel m ds := by
  rw [foldDel_eq_filter, foldDel_eq_filter, List.filter_filter]
  apply List.filter_congr
  intro e _
  by_cases h : e.1 ∈ ds <;> simp [h]

theorem keysOf_foldDel {m : PkMap V} {ds : List Int} {a : Int} :
    a ∈ keysOf (foldDel m ds) ↔ a ∈ keysOf m ∧ a ∉ ds := by
  constructor
  · intro h
    rcases mem_keysOf.mp h with ⟨e, he, rfl⟩
    rcases mem_foldDel.mp he with ⟨hm, hd⟩
    exact ⟨mem_keysOf.mpr ⟨e, hm, rfl⟩, hd⟩
  · rintro ⟨h, hd⟩
    rcases mem_keysOf.mp h with ⟨e, he, rfl⟩
    exact mem_keysOf.mpr ⟨e, mem_foldDel.mpr ⟨he, hd⟩, rfl⟩

theorem length_foldDel_of_subset {m : PkMap V} {ds : List Int}
    (hs : sortedPk m) (hn : ds.Nodup) (hsub : ∀ d ∈ ds, d ∈ keysOf m) :
    (foldDel m ds).length + ds.length = m.length := by
  induction ds generalizing m with
  | nil => simp [foldDel]
  | cons d rest ih =>
    show (foldDel (pkErase m d) rest).length + _ = _
    rw [List.nodup_cons] at hn
    have h1 : ∀ x ∈ rest, x ∈ keysOf (pkErase m d) := by
      intro x hx
      rw [keysOf_pkErase]
      exact ⟨hsub x (List.mem_cons_of_mem _ hx), fun hh => hn.1 (hh ▸ hx)⟩
    have h2 := ih (sortedPk_pkErase hs) hn.2 h1
    have h3 := length_pkErase_of_mem hs (hsub d (List.mem_cons_self d rest))
    simp only [List.length_cons]
    omega

theorem foldDel_of_superset {m : PkMap V} {ds : List Int}
    (hsub : ∀ a ∈ keysOf m, a ∈ ds) :
    foldDel m ds = [] := by
  rw [foldDel_eq_filter, List.filter_eq_nil_iff]
  intro e he
  simp only [decide_eq_true_eq, Decidable.not_not]
  exact hsub e.1 (mem_keysOf.mpr ⟨e, he, rfl⟩)

theorem keysOf_foldUps {m : PkMap V} {s : Nat} {us : List (Int × V)} {a : Int} :
    a ∈ keysOf (foldUps m s us) ↔ a ∈ us.map (·.1) ∨ a ∈ keysOf m := by
  induction us generalizing m with
  | nil => simp [foldUps]
  | cons u rest ih =>
    show a ∈ keysOf (foldUps (pkUpsert m u.1 s u.2) s rest) ↔ _
    rw [ih]
    simp only [List.map_cons, List.mem_cons]
    rw [keysOf_pkUpsert]
    tauto

theorem sortedPk_foldUps {m : PkMap V} {s : Nat} {us : List (Int × V)}
    (h : sortedPk m) : sortedPk (foldUps m s us) := by
  induction us generalizing m with
  | nil => exact h
  | cons u rest ih => exact ih (sortedPk_pkUpsert h)

theorem length_foldUps_fresh {m : PkMap V} {s : Nat} {us : List (Int × V)}
    (hn : (us.map (·.1)).Nodup) (hf : ∀ k ∈ us.map (·.1), k ∉ keysOf m) :
    (foldUps m s us).length = m.length + us.length := by
  induction us generalizing m with
  | nil => simp [foldUps]
  | cons u rest ih =>
    show (foldUps (pkUpsert m u.1 s u.2) s rest).length = _
    simp only [List.map_cons, List.nodup_cons] at hn
    have h1 : ∀ k ∈ rest.map (·.1), k ∉ keysOf (pkUpsert m u.1 s u.2) := by
      intro k hk
      rw [keysOf_pkUpsert]
      push_neg
      exact ⟨fun hh => hn.1 (hh ▸ hk), hf k (List.mem_cons_of_mem _ hk)⟩
    rw [ih hn.2 h1, length_pkUpsert_of_not_mem (hf u.1 (by simp))]
    simp only [List.length_cons]
    omega

theorem length_foldUps_subsumed {m : PkMap V} {s : Nat} {us : List (Int × V)}
    (hs : sortedPk m) (hf : ∀ k ∈ us.map (·.1), k ∈ keysOf m) :
    (foldUps m s us).length = m.length := by
  induction us generalizing m with
  | nil => simp [foldUps]
  | cons u rest ih =>
    show (foldUps (pkUpsert m u.1 s u.2) s rest).length = _
    have hu : u.1 ∈ keysOf m := hf u.1 (by simp)
    have h1 : ∀ k ∈ rest.map (·.1), k ∈ keysOf (pkUpsert m u.1 s u.2) := by
      intro k hk
      rw [keysOf_pkUpsert]
      exact Or.inr (hf k (List.mem_cons_of_mem _ hk))
    rw [ih (sortedPk_pkUpsert hs) h1, length_pkUpsert_of_mem hs hu]

theorem mem_foldUps {m : PkMap V} {s : Nat} {us : List (Int × V)} {e : Int × Nat × V}
    (h : e ∈ foldUps m s us) : e.2.1 = s ∨ e ∈ m := by
  induction us generalizing m with
  | nil => exact Or.inr h
  | cons u rest ih =>
    rcases ih h with h | h
    · exact Or.inl h
    · rcases mem_pkUpsert h with h | h
      · subst h; exact Or.inl rfl
      · exact Or.inr h

/-! ## Lemmas: the apply step and the folded state -/

theorem sortedPk_applyRowset {m : PkMap V} {s : Nat} {rs : Rowset V}
    (h : sortedPk m) : sortedPk (applyRowset m s rs) :=
  sortedPk_foldUps (sortedPk_foldDel h)

theorem mem_applyRowset {m : PkMap V} {s : Nat} {rs : Rowset V} {e : Int × Nat × V}
    (h : e ∈ applyRowset m s rs) : e.2.1 = s ∨ e ∈ m := by
  rcases mem_foldUps h with h | h
  · exact Or.inl h
  · exact Or.inr (mem_foldDel.mp h).1

theorem sortedPk_pkStateAux {m : PkMap V} {i : Nat} {rss : List (Rowset V)}
    (h : sortedPk m) : sortedPk (pkStateAux m i rss) := by
  induction rss generalizing m i with
  | nil => exact h
  | cons rs rest ih => exact ih (sortedPk_applyRowset h)

theorem sortedPk_pkState {base : PkMap V} {rss : List (Rowset V)}
    (h : sortedPk base) : sortedPk (pkState base rss) :=
  sortedPk_pkStateAux h

theorem mem_pkStateAux_seg {m : PkMap V} {i n : Nat} {rss : List (Rowset V)}
    (hm : ∀ e ∈ m, e.2.1 < n) (hi : i + rss.length ≤ n) :
    ∀ e ∈ pkStateAux m i rss, e.2.1 < n := by
  induction rss generalizing m i with
  | nil => exact hm
  | cons rs rest ih =>
    show ∀ e ∈ pkStateAux (applyRowset m i rs) (i + 1) rest, e.2.1 < n
    simp only [List.length_cons] at hi
    refine ih (fun e he => ?_) (by omega)
    rcases mem_applyRowset he with h | h
    · rw [h]; omega
    · exact hm e h

theorem pkStateAux_append (m : PkMap V) (i : Nat) (rss : List (Rowset V)) (rs : Rowset V) :
    pkStateAux m i (rss ++ [rs]) = applyRowset (pkStateAux m i rss) (i + rss.length) rs := by
  induction rss generalizing m i with
  | nil => simp [pkStateAux]
  | cons r rest ih =>
    show pkStateAux (applyRowset m i r) (i + 1) (rest ++ [rs]) = _
    rw [ih]
    simp only [pkStateAux, List.length_cons]
    ring_nf

/-! ## Lemmas: commit ordering and the apply loop -/

/-- Invariant relating a tablet reached by a sequence of commits to the
list `S` of version numbers committed so far: the applied history is a
gap-free prefix of the committed versions, the pending queue holds
exactly the committed versions above `max_version`, version-sorted, and
the apply worker has drained every contiguous pending version. -/
structure CInv (t : Tablet V) (S : List Nat) : Prop where
  low : ∀ w, 2 ≤ w → w ≤ max_version t → w ∈ S
  pend : ∀ w, w ∈ pendingVers t ↔ w ∈ S ∧ max_version t < w
  sorted : List.Pairwise (· < ·) (pendingVers t)
  headOk : ∀ p ∈ t.pending.head?, p.1 ≠ max_version t + 1

theorem cinv_congr {t : Tablet V} {S S' : List Nat} (h : CInv t S)
    (hss : ∀ w, w ∈ S ↔ w ∈ S') : CInv t S' := by
  refine ⟨fun w h2 hw => (hss w).mp (h.low w h2 hw), fun w => ?_, h.sorted, h.headOk⟩
  rw [h.pend w, hss w]

theorem mem_map_insertPend {p : Nat × Rowset V} {l : List (Nat × Rowset V)} {a : Nat} :
    a ∈ (insertPend p l).map (·.1) ↔ a = p.1 ∨ a ∈ l.map (·.1) := by
  induction l with
  | nil => simp [insertPend]
  | cons q rest ih =>
    unfold insertPend
    by_cases h : p.1 < q.1
    · simp [if_pos h]
    · simp only [if_neg h, List.map_cons, List.mem_cons]
      rw [ih]
      tauto

theorem sorted_insertPend {p : Nat × Rowset V} {l : List (Nat × Rowset V)}
    (hs : List.Pairwise (· < ·) (l.map (·.1))) (hm : p.1 ∉ l.map (·.1)) :
    List.Pairwise (· < ·) ((insertPend p l).map (·.1)) := by
  induction l with
  | nil => simp [insertPend]
  | cons q rest ih =>
    simp only [List.map_cons, List.pairwise_cons] at hs
    simp only [List.map_cons, List.mem_cons, not_or] at hm
    unfold insertPend
    by_cases h : p.1 < q.1
    · rw [if_pos h]
      simp only [List.map_cons, List.pairwise_cons]
      refine ⟨fun b hb => ?_, hs⟩
      rcases List.mem_cons.mp hb with rfl | hb
      · exact h
      · exact lt_trans h (hs.1 b hb)
    · rw [if_neg h]
      simp only [List.map_cons, List.pairwise_cons]
      refine ⟨fun b hb => ?_, ih hs.2 hm.2⟩
      rcases mem_map_insertPend.mp hb with rfl | hb
      · exact lt_of_le_of_ne (not_lt.mp h) (Ne.symm hm.1)
      · exact hs.1 b hb

theorem max_version_applyOne (t : Tablet V) (rs : Rowset V) :
    max_version (applyOne t rs) = max_version t + 1 := by
  simp [max_version, applyOne]
  omega

theorem drainFuel_cinv : ∀ (n : Nat) (t : Tablet V) (S : List Nat),
    t.pending.length ≤ n →
    (∀ w, 2 ≤ w → w ≤ max_version t → w ∈ S) →
    (∀ w, w ∈ pendingVers t ↔ w ∈ S ∧ max_version t < w) →
    List.Pairwise (· < ·) (pendingVers t) →
    CInv (drainFuel n t) S := by
  intro n
  induction n with
  | zero =>
    intro t S hlen hlow hpend hsort
    have hp : t.pending = [] := List.eq_nil_of_length_eq_zero (Nat.le_zero.mp hlen)
    refine ⟨hlow, hpend, hsort, ?_⟩
    intro p hp2
    rw [show drainFuel 0 t = t from rfl, hp] at hp2
    simp at hp2
  | succ n ih =>
    intro t S hlen hlow hpend hsort
    cases hp : t.pending with
    | nil =>
      show CInv (drainFuel (n + 1) t) S
      rw [drainFuel, hp]
      refine ⟨hlow, hpend, hsort, ?_⟩
      intro p hp2
      rw [hp] at hp2
      simp at hp2
    | cons q rest =>
      obtain ⟨v, rs⟩ := q
      show CInv (drainFuel (n + 1) t) S
      rw [drainFuel, hp]
      dsimp only
      by_cases hv : v = max_version t + 1
      · rw [if_pos hv]
        set t' := applyOne { t with pending := rest } rs with ht'
        have hmax' : max_version t' = max_version t + 1 := by
          rw [ht', max_version_applyOne]
          simp [max_version]
        have hpend' : t'.pending = rest := rfl
        have hvers : pendingVers t = v :: rest.map (·.1) := by
          simp [pendingVers, hp]
        have hvmem : v ∈ S ∧ max_version t < v := by
          rw [← hpend v]
          simp [hvers]
        apply ih t' S
        · rw [hpend']
          have : t.pending.length = rest.length + 1 := by rw [hp]; simp
          omega
        · intro w h2 hw
          rw [hmax'] at hw
          rcases Nat.lt_or_ge w (max_version t + 1) with hlt | hge
          · exact hlow w h2 (by omega)
          · have : w = max_version t + 1 := by omega
            rw [this, ← hv]
            exact hvmem.1
        · intro w
          have hw : w ∈ pendingVers t' ↔ w ∈ rest.map (·.1) := by
            simp [pendingVers, hpend']
          rw [hw, hmax']
          constructor
          · intro hr
            have hw2 : w ∈ pendingVers t := by rw [hvers]; exact List.mem_cons_of_mem _ hr
            have h3 := (hpend w).mp hw2
            have h4 : v < w := by
              have := hsort
              rw [hvers] at this
              exact (List.pairwise_cons.mp this).1 w hr
            exact ⟨h3.1, by omega⟩
          · rintro ⟨hS, hgt⟩
            have hw2 : w ∈ pendingVers t := (hpend w).mpr ⟨hS, by omega⟩
            rw [hvers] at hw2
            rcases List.mem_cons.mp hw2 with rfl | hw2
            · omega
            · exact hw2
        · have := hsort
          rw [hvers] at this
          have h5 : pendingVers t' = rest.map (·.1) := by simp [pendingVers, hpend']
          rw [h5]
          exact (List.pairwise_cons.mp this).2
      · rw [if_neg hv]
        refine ⟨hlow, hpend, hsort, ?_⟩
        intro p hpmem
        rw [hp] at hpmem
        simp only [List.head?_cons, Option.mem_def, Option.some.injEq] at hpmem
        rw [← hpmem]
        exact hv

theorem drainFuel_stall {n : Nat} {t : Tablet V}
    (h : ∀ p ∈ t.pending.head?, p.1 ≠ max_version t + 1) :
    drainFuel n t = t := by
  cases n with
  | zero => rfl
  | succ n =>
    cases hp : t.pending with
    | nil => rw [drainFuel, hp]
    | cons q rest =>
      obtain ⟨v, rs⟩ := q
      rw [drainFuel, hp]
      dsimp only
      rw [if_neg (h (v, rs) (by rw [hp]; rfl))]

theorem cinv_commit {t : Tablet V} {S : List Nat} (h : CInv t S) (v : Nat) (rs : Rowset V) :
    CInv (rowset_commit t v rs) (v :: S) := by
  unfold rowset_commit
  by_cases hc : v ≤ max_version t ∨ v ∈ pendingVers t
  · rw [if_pos hc]
    refine ⟨fun w h2 hw => List.mem_cons_of_mem _ (h.low w h2 hw), fun w => ?_,
      h.sorted, h.headOk⟩
    rw [h.pend w]
    constructor
    · rintro ⟨hS, hgt⟩
      exact ⟨List.mem_cons_of_mem _ hS, hgt⟩
    · rintro ⟨hS, hgt⟩
      rcases List.mem_cons.mp hS with rfl | hS
      · rcases hc with hc | hc
        · omega
        · exact ⟨((h.pend w).mp hc).1, hgt⟩
      · exact ⟨hS, hgt⟩
  · rw [if_neg hc]
    push_neg at hc
    rw [drain]
    set t' : Tablet V := { t with pending := insertPend (v, rs) t.pending } with ht'
    have hmax' : max_version t' = max_version t := by simp [max_version, ht']
    have hvers' : pendingVers t' = (insertPend (v, rs) t.pending).map (·.1) := rfl
    apply drainFuel_cinv
    · exact le_refl _
    · intro w h2 hw
      rw [hmax'] at hw
      exact List.mem_cons_of_mem _ (h.low w h2 hw)
    · intro w
      rw [hvers', hmax']
      rw [show ((insertPend (v, rs) t.pending).map (·.1) : List Nat) =
        (insertPend (v, rs) t.pending).map (·.1) from rfl]
      constructor
      · intro hw
        rcases mem_map_insertPend.mp hw with rfl | hw
        · exact ⟨List.mem_cons_self _ _, by omega⟩
        · have := (h.pend w).mp hw
          exact ⟨List.mem_cons_of_mem _ this.1, this.2⟩
      · rintro ⟨hS, hgt⟩
        apply mem_map_insertPend.mpr
        rcases List.mem_cons.mp hS with rfl | hS
        · exact Or.inl rfl
        · exact Or.inr ((h.pend w).mpr ⟨hS, hgt⟩)
    · rw [hvers']
      exact sorted_insertPend h.sorted hc.2

theorem cinv_next_not_mem {t : Tablet V} {S : List Nat} (h : CInv t S) :
    max_version t + 1 ∉ S := by
  intro hS
  have hp : max_version t + 1 ∈ pendingVers t := (h.pend _).mpr ⟨hS, by omega⟩
  cases hq : t.pending with
  | nil => rw [pendingVers, hq] at hp; simp at hp
  | cons q rest =>
    have hne : q.1 ≠ max_version t + 1 := h.headOk q (by rw [hq]; rfl)
    have hq1 : q.1 ∈ pendingVers t := by rw [pendingVers, hq]; simp
    have hgt : max_version t < q.1 := ((h.pend _).mp hq1).2
    rw [pendingVers, hq] at hp
    rcases List.mem_cons.mp hp with he | hp
    · exact hne he.symm
    · have hs := h.sorted
      simp only [pendingVers, hq, List.map_cons] at hs
      have := (List.pairwise_cons.mp hs).1 _ hp
      omega

theorem cinv_commitAll : ∀ (cs : List (Nat × Rowset V)) (t : Tablet V) (S : List Nat),
    CInv t S → CInv (commitAll t cs) (cs.map (·.1) ++ S) := by
  intro cs
  induction cs with
  | nil => intro t S h; exact h
  | cons c rest ih =>
    intro t S h
    have h1 := ih (rowset_commit t c.1 c.2) (c.1 :: S) (cinv_commit h c.1 c.2)
    refine cinv_congr h1 (fun w => ?_)
    simp only [List.map_cons, List.mem_append, List.mem_cons]
    tauto

theorem cinv_init (tid shash : Nat) : CInv (initTablet (V := V) tid shash) [] := by
  refine ⟨fun w h2 hw => ?_, fun w => ?_, ?_, ?_⟩
  · simp [max_version, initTablet] at hw
    omega
  · simp [pendingVers, initTablet]
  · simp [pendingVers, initTablet]
  · simp [initTablet]

theorem head_insertPend (p : Nat × Rowset V) (l : List (Nat × Rowset V)) :
    (insertPend p l).head? = some p ∨ (insertPend p l).head? = l.head? := by
  cases l with
  | nil => left; rfl
  | cons q rest =>
    unfold insertPend
    by_cases h : p.1 < q.1
    · rw [if_pos h]; left; rfl
    · rw [if_neg h]; right; rfl

theorem commit_ne_max_succ {t : Tablet V} {S : List Nat} (h : CInv t S)
    {v : Nat} (hv : v ≠ max_version t + 1) (rs : Rowset V) :
    max_version (rowset_commit t v rs) = max_version t ∧
    (max_version t < v → v ∈ pendingVers (rowset_commit t v rs)) := by
  unfold rowset_commit
  by_cases hc : v ≤ max_version t ∨ v ∈ pendingVers t
  · rw [if_pos hc]
    refine ⟨rfl, fun hgt => ?_⟩
    rcases hc with hc | hc
    · omega
    · exact hc
  · rw [if_neg hc]
    push_neg at hc
    rw [drain]
    have hmax' : max_version { t with pending := insertPend (v, rs) t.pending }
        = max_version t := rfl
    have hhead : ∀ p ∈ (insertPend (v, rs) t.pending).head?,
        p.1 ≠ max_version t + 1 := by
      intro p hp
      rcases head_insertPend (v, rs) t.pending with he | he
      · rw [he] at hp
        simp only [Option.mem_def, Option.some.injEq] at hp
        rw [← hp]
        exact hv
      · rw [he] at hp
        exact h.headOk p hp
    rw [drainFuel_stall hhead]
    refine ⟨rfl, fun hgt => ?_⟩
    show v ∈ (insertPend (v, rs) t.pending).map (·.1)
    exact mem_map_insertPend.mpr (Or.inl rfl)

/-- C1: for every sequence of `rowset_commit` calls, in any order, the
apply worker advances only contiguously: after the commits, every
version from 2 up to `max_version` has been committed (the history has
no gap) and the next version has not; a further commit whose version
number is not `max_version + 1` succeeds but leaves `max_version`
unchanged, the new version staying pending; and committing versions
2, 5, 4, 3 in that order yields `max_version` 2 after each of the first
three commits and 5 after the last. -/
theorem c1_out_of_order_commit (tid shash : Nat) (cs : List (Nat × Rowset V)) :
    (∀ w, 2 ≤ w → w ≤ max_version (commitAll (initTablet (V := V) tid shash) cs) →
      w ∈ cs.map (·.1)) ∧
    max_version (commitAll (initTablet (V := V) tid shash) cs) + 1 ∉ cs.map (·.1) ∧
    (∀ v rs, v ≠ max_version (commitAll (initTablet (V := V) tid shash) cs) + 1 →
      max_version (rowset_commit (commitAll (initTablet (V := V) tid shash) cs) v rs)
        = max_version (commitAll (initTablet (V := V) tid shash) cs) ∧
      (max_version (commitAll (initTablet (V := V) tid shash) cs) < v →
        v ∈ pendingVers (rowset_commit (commitAll (initTablet (V := V) tid shash) cs) v rs))) ∧
    (max_version (commitAll (initTablet 1 1) [(2, keyRowset [0, 1])]) = 2 ∧
     max_version (commitAll (initTablet 1 1)
       [(2, keyRowset [0, 1]), (5, keyRowset [0, 1])]) = 2 ∧
     max_version (commitAll (initTablet 1 1)
       [(2, keyRowset [0, 1]), (5, keyRowset [0, 1]), (4, keyRowset [0, 1])]) = 2 ∧
     max_version (commitAll (initTablet 1 1)
       [(2, keyRowset [0, 1]), (5, keyRowset [0, 1]), (4, keyRowset [0, 1]),
        (3, keyRowset [0, 1])]) = 5) := by
  have hinv := cinv_commitAll cs (initTablet (V := V) tid shash) [] (cinv_init tid shash)
  have hinv' : CInv (commitAll (initTablet (V := V) tid shash) cs) (cs.map (·.1)) :=
    cinv_congr hinv (by simp)
  refine ⟨fun w h2 hw => hinv'.low w h2 hw, cinv_next_not_mem hinv', ?_, ?_⟩
  · intro v rs hv
    exact commit_ne_max_succ hinv' hv rs
  · refine ⟨by decide, by decide, by decide, by decide⟩

/-- Witness for C1: instantiated on the 2, 5, 4, 3 commit chain of the
test, discharging the hypotheses at concrete inputs. -/
theorem c1_out_of_order_commit_witness :
    4 ∈ ([(2, keyRowset [0, 1]), (5, keyRowset [0, 1]), (4, keyRowset [0, 1]),
      (3, keyRowset [0, 1])].map (·.1)) ∧
    max_version (rowset_commit (commitAll (initTablet 1 1)
      [(2, keyRowset [0, 1]), (5, keyRowset [0, 1]), (4, keyRowset [0, 1]),
       (3, keyRowset [0, 1])]) 9 (keyRowset [7]))
      = max_version (commitAll (initTablet 1 1)
      [(2, keyRowset [0, 1]), (5, keyRowset [0, 1]), (4, keyRowset [0, 1]),
       (3, keyRowset [0, 1])]) := by
  have h := c1_out_of_order_commit 1 1
    [(2, keyRowset [0, 1]), (5, keyRowset [0, 1]), (4, keyRowset [0, 1]),
     (3, keyRowset [0, 1])]
  refine ⟨h.1 4 (by decide) (by decide), (h.2.2.1 9 (keyRowset [7]) (by decide)).1⟩

theorem rowset_commit_next {t : Tablet V} (hp : t.pending = []) (rs : Rowset V) :
    rowset_commit t (max_version t + 1) rs = applyOne { t with pending := [] } rs := by
  unfold rowset_commit
  rw [if_neg (by simp [pendingVers, hp])]
  rw [hp]
  show drain { t with pending := [(max_version t + 1, rs)] } = _
  rw [drain]
  show drainFuel 1 { t with pending := [(max_version t + 1, rs)] } = _
  rw [drainFuel]
  dsimp only
  split
  · rfl
  · next hcond => exact absurd rfl hcond

/-- C3: read-after-write with primary-key deduplication. Committing a
set of distinct keys at version 2 and then the same keys again (with any
values) at version 3 advances `max_version` to 2 and then 3, and reading
at version 3 as well as at version 2 returns exactly the number of
distinct keys: every version-2 row is superseded by the version-3 row
with the same key, so the net live count is the key count, not twice
it. -/
theorem c3_writeread (tid shash : Nat) (ks : List Int) (f g : Int → V)
    (hn : ks.Nodup) :
    max_version (rowset_commit (initTablet (V := V) tid shash) 2
      ⟨ks.map (fun k => (k, f k)), []⟩) = 2 ∧
    max_version (rowset_commit (rowset_commit (initTablet (V := V) tid shash) 2
      ⟨ks.map (fun k => (k, f k)), []⟩) 3 ⟨ks.map (fun k => (k, g k)), []⟩) = 3 ∧
    read_tablet (rowset_commit (rowset_commit (initTablet (V := V) tid shash) 2
      ⟨ks.map (fun k => (k, f k)), []⟩) 3 ⟨ks.map (fun k => (k, g k)), []⟩) 3
      = some ks.length ∧
    read_tablet (rowset_commit (rowset_commit (initTablet (V := V) tid shash) 2
      ⟨ks.map (fun k => (k, f k)), []⟩) 3 ⟨ks.map (fun k => (k, g k)), []⟩) 2
      = some ks.length := by
  have e1 : rowset_commit (initTablet (V := V) tid shash) 2
      ⟨ks.map (fun k => (k, f k)), []⟩
      = applyOne (initTablet (V := V) tid shash) ⟨ks.map (fun k => (k, f k)), []⟩ :=
    rowset_commit_next rfl _
  have e2 : rowset_commit
      (applyOne (initTablet (V := V) tid shash) ⟨ks.map (fun k => (k, f k)), []⟩) 3
      ⟨ks.map (fun k => (k, g k)), []⟩
      = applyOne (applyOne (initTablet (V := V) tid shash) ⟨ks.map (fun k => (k, f k)), []⟩)
        ⟨ks.map (fun k => (k, g k)), []⟩ :=
    rowset_commit_next rfl _
  rw [e1, e2]
  have hkeys1 : ((⟨ks.map (fun k => (k, f k)), []⟩ : Rowset V).upserts.map (·.1)) = ks := by
    show ((ks.map (fun k => (k, f k))).map (·.1)) = ks
    rw [List.map_map]
    exact List.map_id ks
  have hkeys2 : ((⟨ks.map (fun k => (k, g k)), []⟩ : Rowset V).upserts.map (·.1)) = ks := by
    show ((ks.map (fun k => (k, g k))).map (·.1)) = ks
    rw [List.map_map]
    exact List.map_id ks
  have hlen1 : (applyRowset ([] : PkMap V) 0 ⟨ks.map (fun k => (k, f k)), []⟩).length
      = ks.length := by
    show (foldUps (foldDel [] []) 0 (ks.map (fun k => (k, f k)))).length = ks.length
    rw [show foldDel ([] : PkMap V) [] = [] from rfl]
    rw [length_foldUps_fresh (by rw [← hkeys1] at hn; exact (hkeys1 ▸ hn))
      (by intro k hk; simp [keysOf])]
    simp
  have hsorted1 : sortedPk (applyRowset ([] : PkMap V) 0 ⟨ks.map (fun k => (k, f k)), []⟩) := by
    apply sortedPk_foldUps
    apply sortedPk_foldDel
    exact List.Pairwise.nil
  have hsub : ∀ k ∈ ks,
      k ∈ keysOf (applyRowset ([] : PkMap V) 0 ⟨ks.map (fun k => (k, f k)), []⟩) := by
    intro k hk
    show k ∈ keysOf (foldUps (foldDel [] []) 0 (ks.map (fun k => (k, f k))))
    rw [keysOf_foldUps, hkeys1]
    exact Or.inl hk
  have hlen2 : (applyRowset (applyRowset ([] : PkMap V) 0 ⟨ks.map (fun k => (k, f k)), []⟩) 1
      ⟨ks.map (fun k => (k, g k)), []⟩).length = ks.length := by
    show (foldUps (foldDel (applyRowset [] 0 ⟨ks.map (fun k => (k, f k)), []⟩) []) 1
      (ks.map (fun k => (k, g k)))).length = _
    rw [show foldDel (applyRowset ([] : PkMap V) 0 ⟨ks.map (fun k => (k, f k)), []⟩) []
      = applyRowset [] 0 ⟨ks.map (fun k => (k, f k)), []⟩ from rfl]
    rw [length_foldUps_subsumed hsorted1 (by rw [hkeys2]; exact hsub), hlen1]
  refine ⟨rfl, rfl, ?_, ?_⟩
  · rw [read_tablet,
      if_pos (⟨(by norm_num : (1 : Nat) ≤ 3), (by norm_num : (1 : Nat) ≤ 3), le_refl 3⟩)]
    exact congrArg some hlen2
  · rw [read_tablet,
      if_pos (⟨(by norm_num : (1 : Nat) ≤ 2), (by norm_num : (1 : Nat) ≤ 2),
        (by norm_num : (2 : Nat) ≤ 3)⟩)]
    exact congrArg some hlen1

/-- Witness for C3: the test's 8000 keys `0, 1, ..., 7999` committed
twice, reading 8000 live rows at versions 2 and 3. -/
theorem c3_writeread_witness :
    read_tablet (rowset_commit (rowset_commit (initTablet (V := Int) 5 6) 2
      ⟨((List.range 8000).map (Int.ofNat)).map (fun k => (k, k)), []⟩) 3
      ⟨((List.range 8000).map (Int.ofNat)).map (fun k => (k, k + 1)), []⟩) 3
      = some 8000 := by
  have hn : ((List.range 8000).map (Int.ofNat)).Nodup := by
    refine List.Nodup.map (fun a b h => ?_) (List.nodup_range 8000)
    exact Int.ofNat.inj h
  have h := (c3_writeread 5 6 ((List.range 8000).map (Int.ofNat))
    (fun k => k) (fun k => k + 1) hn).2.2.1
  simpa using h

/-- C4: delete correctness. After inserting distinct keys `ks` at
version 2, committing a rowset whose delete list holds the first `n`
keys leaves exactly `ks.length - n` rows readable at version 3;
committing a rowset carrying both a delete list for all old keys and an
upsert of fresh keys `ks'` leaves exactly the `ks'.length` new rows
readable at version 4. Deletes from a rowset are processed before its
inserts, so a simultaneous delete+insert of one key resolves to the
insert surviving, and re-applying the same deletes is idempotent. -/
theorem c4_delete_correctness (tid shash : Nat) (ks ks' : List Int) (n : Nat)
    (f f' : Int → V) (hn : ks.Nodup) (hn' : ks'.Nodup) (hnn : n ≤ ks.length) :
    read_tablet (rowset_commit (rowset_commit (initTablet (V := V) tid shash) 2
      ⟨ks.map (fun k => (k, f k)), []⟩) 3 ⟨[], ks.take n⟩) 3
      = some (ks.length - n) ∧
    read_tablet (rowset_commit (rowset_commit (rowset_commit (initTablet (V := V) tid shash) 2
      ⟨ks.map (fun k => (k, f k)), []⟩) 3 ⟨[], ks.take n⟩) 4
      ⟨ks'.map (fun k => (k, f' k)), ks⟩) 4
      = some ks'.length ∧
    (∀ (m : PkMap V) (s : Nat) (rs : Rowset V) (k : Int),
      k ∈ rs.deletes → k ∈ rs.upserts.map (·.1) → k ∈ keysOf (applyRowset m s rs)) ∧
    (∀ (m : PkMap V) (s : Nat) (ds : List Int),
      applyRowset (applyRowset m s ⟨[], ds⟩) s ⟨[], ds⟩ = applyRowset m s ⟨[], ds⟩) := by
  have e1 : rowset_commit (initTablet (V := V) tid shash) 2
      ⟨ks.map (fun k => (k, f k)), []⟩
      = applyOne (initTablet (V := V) tid shash) ⟨ks.map (fun k => (k, f k)), []⟩ :=
    rowset_commit_next rfl _
  have e2 : rowset_commit
      (applyOne (initTablet (V := V) tid shash) ⟨ks.map (fun k => (k, f k)), []⟩) 3
      ⟨[], ks.take n⟩
      = applyOne (applyOne (initTablet (V := V) tid shash) ⟨ks.map (fun k => (k, f k)), []⟩)
        ⟨[], ks.take n⟩ :=
    rowset_commit_next rfl _
  have e3 : rowset_commit
      (applyOne (applyOne (initTablet (V := V) tid shash) ⟨ks.map (fun k => (k, f k)), []⟩)
        ⟨[], ks.take n⟩) 4 ⟨ks'.map (fun k => (k, f' k)), ks⟩
      = applyOne (applyOne (applyOne (initTablet (V := V) tid shash)
        ⟨ks.map (fun k => (k, f k)), []⟩) ⟨[], ks.take n⟩)
        ⟨ks'.map (fun k => (k, f' k)), ks⟩ :=
    rowset_commit_next rfl _
  rw [e1, e2, e3]
  have hkeys1 : ((ks.map (fun k => (k, f k))).map (·.1)) = ks := by
    rw [List.map_map]
    exact List.map_id ks
  -- the state after version 2
  have hlen1 : (applyRowset ([] : PkMap V) 0 ⟨ks.map (fun k => (k, f k)), []⟩).length
      = ks.length := by
    show (foldUps (foldDel [] []) 0 (ks.map (fun k => (k, f k)))).length = ks.length
    rw [show foldDel ([] : PkMap V) [] = [] from rfl]
    rw [length_foldUps_fresh (by rw [hkeys1]; exact hn) (by intro k hk; simp [keysOf])]
    simp
  have hsorted1 : sortedPk (applyRowset ([] : PkMap V) 0 ⟨ks.map (fun k => (k, f k)), []⟩) :=
    sortedPk_foldUps (sortedPk_foldDel List.Pairwise.nil)
  have hkeysm1 : ∀ a, a ∈ keysOf (applyRowset ([] : PkMap V) 0
      ⟨ks.map (fun k => (k, f k)), []⟩) ↔ a ∈ ks := by
    intro a
    show a ∈ keysOf (foldUps (foldDel [] []) 0 (ks.map (fun k => (k, f k)))) ↔ _
    rw [keysOf_foldUps, hkeys1]
    simp [keysOf, show foldDel ([] : PkMap V) [] = [] from rfl]
  -- the state after version 3 (delete of the first n keys)
  have hm2 : applyRowset (applyRowset ([] : PkMap V) 0 ⟨ks.map (fun k => (k, f k)), []⟩) 1
      ⟨[], ks.take n⟩
      = foldDel (applyRowset ([] : PkMap V) 0 ⟨ks.map (fun k => (k, f k)), []⟩)
        (ks.take n) := rfl
  have hlen2 : (applyRowset (applyRowset ([] : PkMap V) 0 ⟨ks.map (fun k => (k, f k)), []⟩) 1
      ⟨[], ks.take n⟩).length = ks.length - n := by
    rw [hm2]
    have htake : (ks.take n).Nodup := hn.sublist (List.take_sublist n ks)
    have hsub : ∀ d ∈ ks.take n, d ∈ keysOf (applyRowset ([] : PkMap V) 0
        ⟨ks.map (fun k => (k, f k)), []⟩) := by
      intro d hd
      exact (hkeysm1 d).mpr (List.mem_of_mem_take hd)
    have := length_foldDel_of_subset hsorted1 htake hsub
    rw [List.length_take] at this
    omega
  -- the state after version 4 (delete everything, insert fresh keys)
  have hm3 : applyRowset (applyRowset (applyRowset ([] : PkMap V) 0
      ⟨ks.map (fun k => (k, f k)), []⟩) 1 ⟨[], ks.take n⟩) 2
      ⟨ks'.map (fun k => (k, f' k)), ks⟩
      = foldUps (foldDel (applyRowset (applyRowset ([] : PkMap V) 0
        ⟨ks.map (fun k => (k, f k)), []⟩) 1 ⟨[], ks.take n⟩) ks) 2
        (ks'.map (fun k => (k, f' k))) := rfl
  have hdelall : foldDel (applyRowset (applyRowset ([] : PkMap V) 0
      ⟨ks.map (fun k => (k, f k)), []⟩) 1 ⟨[], ks.take n⟩) ks = [] := by
    apply foldDel_of_superset
    intro a ha
    rw [hm2, keysOf_foldDel] at ha
    exact (hkeysm1 a).mp ha.1
  have hkeys' : ((ks'.map (fun k => (k, f' k))).map (·.1)) = ks' := by
    rw [List.map_map]
    exact List.map_id ks'
  have hlen3 : (applyRowset (applyRowset (applyRowset ([] : PkMap V) 0
      ⟨ks.map (fun k => (k, f k)), []⟩) 1 ⟨[], ks.take n⟩) 2
      ⟨ks'.map (fun k => (k, f' k)), ks⟩).length = ks'.length := by
    rw [hm3, hdelall,
      length_foldUps_fresh (by rw [hkeys']; exact hn') (by intro k hk; simp [keysOf])]
    simp
  refine ⟨?_, ?_, ?_, ?_⟩
  · rw [read_tablet,
      if_pos (⟨(by norm_num : (1 : Nat) ≤ 3), (by norm_num : (1 : Nat) ≤ 3), le_refl 3⟩)]
    exact congrArg some hlen2
  · rw [read_tablet,
      if_pos (⟨(by norm_num : (1 : Nat) ≤ 4), (by norm_num : (1 : Nat) ≤ 4), le_refl 4⟩)]
    exact congrArg some hlen3
  · intro m s rs k _ hku
    show k ∈ keysOf (foldUps (foldDel m rs.deletes) s rs.upserts)
    rw [keysOf_foldUps]
    exact Or.inl hku
  · intro m s ds
    show foldUps (foldDel (foldUps (foldDel m ds) s []) ds) s []
      = foldUps (foldDel m ds) s []
    show foldDel (foldDel m ds) ds = foldDel m ds
    exact foldDel_idem m ds

/-- Witness for C4: 8 keys, delete the first half at version 3 (4 rows
remain), then delete all and insert 8 fresh keys at version 4 (8 rows
remain). -/
theorem c4_delete_correctness_witness :
    read_tablet (rowset_commit (rowset_commit (initTablet (V := Int) 5 6) 2
      ⟨[0, 1, 2, 3, 4, 5, 6, 7].map (fun k => (k, k)), []⟩) 3
      ⟨[], [0, 1, 2, 3, 4, 5, 6, 7].take 4⟩) 3 = some 4 ∧
    read_tablet (rowset_commit (rowset_commit (rowset_commit (initTablet (V := Int) 5 6) 2
      ⟨[0, 1, 2, 3, 4, 5, 6, 7].map (fun k => (k, k)), []⟩) 3
      ⟨[], [0, 1, 2, 3, 4, 5, 6, 7].take 4⟩) 4
      ⟨[8, 9, 10, 11, 12, 13, 14, 15].map (fun k => (k, k)), [0, 1, 2, 3, 4, 5, 6, 7]⟩) 4
      = some 8 := by
  have h := c4_delete_correctness 5 6 [0, 1, 2, 3, 4, 5, 6, 7] [8, 9, 10, 11, 12, 13, 14, 15]
    4 (fun k => k) (fun k => k) (by decide) (by decide) (by decide)
  exact ⟨h.1, h.2.1⟩

/-! ## Lemmas: persistence, scoring, snapshot transfer -/

theorem load_save (t : Tablet V) : load_from_store (save_meta t) = t := rfl

/-- C8: compaction scoring. A tablet holding one rowset with no
deletions scores non-positive (not a candidate); once accumulated
deletions reach the threshold (half the written rows) the score is
positive even with few rowsets; and immediately after a compaction the
score is non-positive (cooldown) until the minimum interval elapses. -/
theorem c8_compaction_score :
    (∀ (t : Tablet V) (now : Nat), t.rowsets.length = 1 → delCount t = 0 →
      get_compaction_score t now ≤ 0) ∧
    (∀ (t : Tablet V) (now : Nat), t.lastCompaction + updateCompactionInterval ≤ now →
      0 < delCount t → rowsWritten t ≤ 2 * delCount t →
      0 < get_compaction_score t now) ∧
    (∀ (t : Tablet V) (now d : Nat), d < updateCompactionInterval →
      get_compaction_score (compaction t now) (now + d) ≤ 0) := by
  refine ⟨?_, ?_, ?_⟩
  · intro t now h1 h2
    unfold get_compaction_score
    split
    · norm_num
    · rw [if_neg (by omega)]
      rw [h1]
      norm_num
  · intro t now hcool hdel hthr
    unfold get_compaction_score
    rw [if_neg (by omega), if_pos ⟨hdel, hthr⟩]
    positivity
  · intro t now d hd
    unfold get_compaction_score
    rw [if_pos (by show now + d < now + updateCompactionInterval; omega)]
    norm_num

/-- Witness for C8: a one-rowset tablet with no deletions scores
non-positive; a tablet where 3 of 4 written rows are deleted scores
positive; right after compacting it, the score is non-positive again. -/
theorem c8_compaction_score_witness :
    get_compaction_score (applyOne (initTablet (V := Int) 1 2) (keyRowset [0, 1])) 1000 ≤ 0 ∧
    0 < get_compaction_score (applyOne (applyOne (initTablet (V := Int) 1 2)
      (keyRowset [0, 1, 2, 3])) (keyRowsetD [] [0, 1, 2])) 1000 ∧
    get_compaction_score (compaction (applyOne (applyOne (initTablet (V := Int) 1 2)
      (keyRowset [0, 1, 2, 3])) (keyRowsetD [] [0, 1, 2])) 1000) (1000 + 200) ≤ 0 := by
  refine ⟨c8_compaction_score.1 _ 1000 (by decide) (by decide),
    c8_compaction_score.2.1 _ 1000 (by decide) (by decide) (by decide),
    c8_compaction_score.2.2 _ 1000 200 (by decide)⟩

/-- C6: error atomicity of state transfer. A snapshot (full or
incremental) whose tablet identity does not match the destination is
rejected with the mismatched-tablet-id validation error before any
mutation (even if its files are also missing); a snapshot referencing a
segment file absent from the destination fails with the distinct
segment-file-missing error and leaves the destination's `max_version`,
`version_history_count` and readable content exactly as before, also
after reload from the persistent meta store. -/
theorem c6_load_snapshot_errors :
    (∀ (t : Tablet V) (files : List Nat) (m : SnapshotMeta V),
      m.mtid ≠ t.tid ∨ m.mshash ≠ t.shash →
      load_snapshot t files m = (some LoadErr.mismatchedTabletId, t)) ∧
    (∀ (t : Tablet V) (files : List Nat) (m : SnapshotMeta V),
      m.mtid = t.tid → m.mshash = t.shash → (∃ f ∈ m.mfiles, f ∉ files) →
      load_snapshot t files m = (some LoadErr.segmentFileMissing, t) ∧
      max_version (load_snapshot t files m).2 = max_version t ∧
      version_history_count (load_snapshot t files m).2 = version_history_count t ∧
      (∀ v, read_tablet (load_snapshot t files m).2 v = read_tablet t v) ∧
      load_from_store (save_meta (load_snapshot t files m).2)
        = (load_snapshot t files m).2) := by
  constructor
  · intro t files m hmm
    unfold load_snapshot
    rw [if_pos hmm]
  · intro t files m h1 h2 hf
    have he : load_snapshot t files m = (some LoadErr.segmentFileMissing, t) := by
      unfold load_snapshot
      rw [if_neg (by push_neg; exact ⟨h1, h2⟩)]
      rw [if_pos ?_]
      rcases hf with ⟨f, hfm, hff⟩
      exact List.any_eq_true.mpr ⟨f, hfm, by simpa using hff⟩
    rw [he]
    exact ⟨rfl, rfl, rfl, fun v => rfl, rfl⟩

/-- Witness for C6: a mismatched incremental snapshot is rejected as
such even with a missing file; a matching snapshot referencing the
absent file 7 fails with the segment-file-missing error and the
destination state is unchanged. -/
theorem c6_load_snapshot_errors_witness :
    load_snapshot (initTablet (V := Int) 3 4) []
      (SnapshotMeta.incremental 99 4 [] [7])
      = (some LoadErr.mismatchedTabletId, initTablet (V := Int) 3 4) ∧
    load_snapshot (initTablet (V := Int) 3 4) []
      (SnapshotMeta.incremental 3 4 [] [7])
      = (some LoadErr.segmentFileMissing, initTablet (V := Int) 3 4) := by
  refine ⟨c6_load_snapshot_errors.1 _ [] _ (Or.inl (by decide)),
    (c6_load_snapshot_errors.2 _ [] _ (by decide) (by decide)
      ⟨7, by decide, by decide⟩).1⟩

theorem drainFuel_nil {n : Nat} {t : Tablet V} (hp : t.pending = []) :
    drainFuel n t = t := by
  cases n with
  | zero => rfl
  | succ n => rw [drainFuel, hp]

theorem drain_nil {t : Tablet V} (hp : t.pending = []) : drain t = t := by
  rw [drain]
  exact drainFuel_nil hp

theorem contentAt_nil_rowsets {u : Tablet V} (h : u.rowsets = []) (v : Nat) :
    contentAt u v = u.baseContent := by
  rw [contentAt, h, List.take_nil]
  rfl

/-- C7: full-snapshot clone. Loading a full snapshot of `src` taken at
version `v` into a destination with no pending versions installs a
brand-new complete history: afterwards the destination has exactly one
retained version, its `max_version` equals `v`, and reading it at
`max_version` returns exactly the source's live rows at `v`; the state
survives reload from the persistent meta store. -/
theorem c7_full_snapshot_clone (src dst : Tablet V) (v : Nat) (fs : List Nat)
    (hp : dst.pending = []) :
    (full_clone src dst v fs).1 = none ∧
    version_history_count (full_clone src dst v fs).2 = 1 ∧
    max_version (full_clone src dst v fs).2 = v ∧
    liveRows (full_clone src dst v fs).2 v = liveRows src v ∧
    read_tablet (full_clone src dst v fs).2 v = some ((contentAt src v).length) ∧
    load_from_store (save_meta (full_clone src dst v fs).2)
      = (full_clone src dst v fs).2 := by
  have hload : load_snapshot dst fs (snapshot_full src v dst.tid dst.shash fs)
      = (none, drain { dst with
          baseVer := v, baseContent := contentAt src v, rowsets := [],
          pending := dst.pending.filter (fun p => decide (v < p.1)),
          retainedFrom := v, historyCount := 1, gens := [] }) := by
    unfold load_snapshot snapshot_full
    rw [if_neg (by simp [SnapshotMeta.mtid, SnapshotMeta.mshash]),
      if_neg (by simp [SnapshotMeta.mfiles, List.any_eq_true])]
  have hfil : dst.pending.filter (fun p => decide (v < p.1)) = [] := by
    rw [hp]; rfl
  rw [hfil] at hload
  rw [drain_nil rfl] at hload
  have hclone : full_clone src dst v fs
      = (none, remove_expired_versions { dst with
          baseVer := v, baseContent := contentAt src v, rowsets := [], pending := [],
          retainedFrom := v, historyCount := 1, gens := [] } 0) := by
    unfold full_clone
    rw [hload]
    rfl
  rw [hclone]
  refine ⟨rfl, rfl, rfl, ?_, ?_, rfl⟩
  · unfold liveRows
    rw [contentAt_nil_rowsets rfl]
    rfl
  · rw [read_tablet, if_pos ⟨le_refl v, le_refl v, Nat.le_add_right v _⟩,
      contentAt_nil_rowsets rfl]
    rfl

/-- Witness for C7: the test's scenario, a source at version 11 holding
10 keys cloned into a destination at version 3 holding 4 keys: the
destination ends with one history entry at `max_version` 11 reading the
10 source rows. -/
theorem c7_full_snapshot_clone_witness :
    version_history_count (full_clone
      (commitAll (initTablet (V := Int) 1 2)
        ((List.range 10).map (fun i => (i + 2, keyRowset [0, 1, 2, 3, 4, 5, 6, 7, 8, 9]))))
      (commitAll (initTablet (V := Int) 3 4)
        [(2, keyRowset [0, 1, 2, 3]), (3, keyRowset [0, 1, 2, 3])]) 11 [5]).2 = 1 ∧
    max_version (full_clone
      (commitAll (initTablet (V := Int) 1 2)
        ((List.range 10).map (fun i => (i + 2, keyRowset [0, 1, 2, 3, 4, 5, 6, 7, 8, 9]))))
      (commitAll (initTablet (V := Int) 3 4)
        [(2, keyRowset [0, 1, 2, 3]), (3, keyRowset [0, 1, 2, 3])]) 11 [5]).2 = 11 ∧
    read_tablet (full_clone
      (commitAll (initTablet (V := Int) 1 2)
        ((List.range 10).map (fun i => (i + 2, keyRowset [0, 1, 2, 3, 4, 5, 6, 7, 8, 9]))))
      (commitAll (initTablet (V := Int) 3 4)
        [(2, keyRowset [0, 1, 2, 3]), (3, keyRowset [0, 1, 2, 3])]) 11 [5]).2 11
      = some 10 := by
  have h := c7_full_snapshot_clone
    (commitAll (initTablet (V := Int) 1 2)
      ((List.range 10).map (fun i => (i + 2, keyRowset [0, 1, 2, 3, 4, 5, 6, 7, 8, 9]))))
    (commitAll (initTablet (V := Int) 3 4)
      [(2, keyRowset [0, 1, 2, 3]), (3, keyRowset [0, 1, 2, 3])]) 11 [5] (by decide)
  refine ⟨h.2.1, h.2.2.1, ?_⟩
  rw [h.2.2.2.2.1]
  decide

theorem drainFuel_range : ∀ (k n : Nat) (t : Tablet V),
    pendingVers t = List.range' (max_version t + 1) k → k ≤ n →
    max_version (drainFuel n t) = max_version t + k ∧
    (drainFuel n t).rowsets = t.rowsets ++ t.pending.map (·.2) ∧
    (drainFuel n t).pending = [] ∧
    (drainFuel n t).baseVer = t.baseVer ∧
    (drainFuel n t).baseContent = t.baseContent := by
  intro k
  induction k with
  | zero =>
    intro n t hp _
    have hnil : t.pending = [] := by
      have : t.pending.map (·.1) = [] := hp
      exact List.eq_nil_of_length_eq_zero (by
        have := congrArg List.length this
        simpa using this)
    rw [drainFuel_nil hnil, hnil]
    simp
  | succ k ih =>
    intro n t hp hk
    cases hq : t.pending with
    | nil =>
      rw [pendingVers, hq] at hp
      rw [List.range'_succ] at hp
      simp at hp
    | cons q rest =>
      obtain ⟨v, rs⟩ := q
      rw [pendingVers, hq, List.map_cons, List.range'_succ] at hp
      have hv : v = max_version t + 1 := by
        have := List.head_eq_of_cons_eq hp
        simpa using this
      have hrest : rest.map (·.1) = List.range' (max_version t + 2) k :=
        List.tail_eq_of_cons_eq hp
      cases n with
      | zero => omega
      | succ n =>
        rw [drainFuel, hq]
        dsimp only
        rw [if_pos hv]
        have hmax1 : max_version (applyOne { t with pending := rest } rs)
            = max_version t + 1 := by
          rw [max_version_applyOne]
          rfl
        have hp1 : pendingVers (applyOne { t with pending := rest } rs)
            = List.range' (max_version (applyOne { t with pending := rest } rs) + 1) k := by
          rw [hmax1]
          exact hrest
        obtain ⟨ihmax, ihrow, ihpend, ihbase, ihcont⟩ :=
          ih n (applyOne { t with pending := rest } rs) hp1 (by omega)
        rw [hmax1] at ihmax
        refine ⟨by omega, ?_, ihpend, ihbase, ihcont⟩
        rw [ihrow]
        show (t.rowsets ++ [rs]) ++ rest.map (·.2) = t.rowsets ++ ((v, rs) :: rest).map (·.2)
        rw [List.append_assoc]
        rfl

/-- C10: a full clone does not discard the destination's pending
versions beyond the clone version. If the destination holds pending
versions `v+1, ..., v+k` when a full snapshot at version `v` is loaded,
the load succeeds, the retained pending versions are applied on top of
the cloned state, so `max_version` becomes the highest contiguous
pending version `v+k` — above the clone version when `k > 0` — and
reading at `max_version` returns the cloned content with the pending
rowsets' net effect applied; the state survives reload from the
persistent meta store. -/
theorem c10_clone_keeps_pending (src dst : Tablet V) (v k : Nat) (fs : List Nat)
    (hpend : pendingVers dst = List.range' (v + 1) k) :
    (full_clone src dst v fs).1 = none ∧
    max_version (full_clone src dst v fs).2 = v + k ∧
    (0 < k → v < max_version (full_clone src dst v fs).2) ∧
    read_tablet (full_clone src dst v fs).2 (v + k)
      = some ((pkState (contentAt src v) (dst.pending.map (·.2))).length) ∧
    load_from_store (save_meta (full_clone src dst v fs).2)
      = (full_clone src dst v fs).2 := by
  have hfil : dst.pending.filter (fun p => decide (v < p.1)) = dst.pending := by
    apply List.filter_eq_self.mpr
    intro p hpm
    have : p.1 ∈ pendingVers dst := List.mem_map_of_mem _ hpm
    rw [hpend] at this
    have := (List.mem_range'_1.mp this).1
    simpa using (by omega : v < p.1)
  have hload : load_snapshot dst fs (snapshot_full src v dst.tid dst.shash fs)
      = (none, drain { dst with
          baseVer := v, baseContent := contentAt src v, rowsets := [],
          pending := dst.pending,
          retainedFrom := v, historyCount := 1, gens := [] }) := by
    unfold load_snapshot snapshot_full
    rw [if_neg (by simp [SnapshotMeta.mtid, SnapshotMeta.mshash]),
      if_neg (by simp [SnapshotMeta.mfiles, List.any_eq_true])]
    dsimp only
    rw [hfil]
  set T0 : Tablet V := { dst with
    baseVer := v, baseContent := contentAt src v, rowsets := [],
    pending := dst.pending,
    retainedFrom := v, historyCount := 1, gens := [] } with hT0
  have hT0max : max_version T0 = v := rfl
  have hT0pend : pendingVers T0 = List.range' (max_version T0 + 1) k := by
    rw [hT0max]
    exact hpend
  obtain ⟨hmax, hrow, hpnd, hbase, hcont⟩ :=
    drainFuel_range k T0.pending.length T0 hT0pend (by
      have : T0.pending.length = k := by
        have := congrArg List.length hT0pend
        simpa [pendingVers] using this
      omega)
  rw [← drain] at hmax hrow hpnd hbase hcont
  rw [hT0max] at hmax
  have hclone : full_clone src dst v fs
      = (none, remove_expired_versions (drain T0) 0) := by
    unfold full_clone
    rw [hload]
    rfl
  rw [hclone]
  have hmaxg : max_version (remove_expired_versions (drain T0) 0) = v + k := by
    show (drain T0).baseVer + (drain T0).rowsets.length = v + k
    have := hmax
    rw [max_version] at this
    omega
  refine ⟨rfl, hmaxg, fun hk0 => lt_of_lt_of_eq (by omega : v < v + k) hmaxg.symm, ?_, rfl⟩
  have hcontent : contentAt (remove_expired_versions (drain T0) 0) (v + k)
      = pkState (contentAt src v) (dst.pending.map (·.2)) := by
    show pkState (drain T0).baseContent
      ((drain T0).rowsets.take (v + k - (drain T0).baseVer)) = _
    have hb : (drain T0).baseVer = v := hbase
    have hc : (drain T0).baseContent = contentAt src v := hcont
    have hr : (drain T0).rowsets = dst.pending.map (·.2) := by
      rw [hrow]
      rfl
    rw [hb, hc, hr]
    have hlen : (dst.pending.map (·.2)).length = k := by
      have := congrArg List.length hpend
      simpa [pendingVers] using this
    rw [show v + k - v = k from by omega, ← hlen, List.take_length]
  rw [read_tablet, if_pos ?_, hcontent]
  refine ⟨?_, ?_, ?_⟩
  · show max_version (drain T0) ≤ v + k
    omega
  · show (drain T0).baseVer ≤ v + k
    rw [hbase, show T0.baseVer = v from rfl]
    omega
  · rw [hmaxg]

/-- Witness for C10: the test's scenario — a destination at version 3
holding pending versions 12 and 13 receives a full clone at version 11;
afterwards `max_version` is 13 (not 11) and reading at 13 returns the
10 cloned rows plus the 3 pending keys. -/
theorem c10_clone_keeps_pending_witness :
    max_version (full_clone
      (commitAll (initTablet (V := Int) 1 2)
        ((List.range 10).map (fun i => (i + 2, keyRowset [0, 1, 2, 3, 4, 5, 6, 7, 8, 9]))))
      (commitAll (initTablet (V := Int) 3 4)
        [(2, keyRowset [0, 1, 2, 3]), (3, keyRowset [0, 1, 2, 3]),
         (12, keyRowset [10, 11, 12]), (13, keyRowset [10, 11, 12])]) 11 [5]).2 = 13 ∧
    read_tablet (full_clone
      (commitAll (initTablet (V := Int) 1 2)
        ((List.range 10).map (fun i => (i + 2, keyRowset [0, 1, 2, 3, 4, 5, 6, 7, 8, 9]))))
      (commitAll (initTablet (V := Int) 3 4)
        [(2, keyRowset [0, 1, 2, 3]), (3, keyRowset [0, 1, 2, 3]),
         (12, keyRowset [10, 11, 12]), (13, keyRowset [10, 11, 12])]) 11 [5]).2 13
      = some 13 := by
  have h := c10_clone_keeps_pending
    (commitAll (initTablet (V := Int) 1 2)
      ((List.range 10).map (fun i => (i + 2, keyRowset [0, 1, 2, 3, 4, 5, 6, 7, 8, 9]))))
    (commitAll (initTablet (V := Int) 3 4)
      [(2, keyRowset [0, 1, 2, 3]), (3, keyRowset [0, 1, 2, 3]),
       (12, keyRowset [10, 11, 12]), (13, keyRowset [10, 11, 12])]) 11 2 [5] (by decide)
  refine ⟨h.2.1, ?_⟩
  have hr := h.2.2.2.1
  rw [show (11 + 2 : Nat) = 13 from rfl] at hr
  rw [hr]
  decide

/-! ## Lemmas: delete-vector generations and expired-version GC -/

theorem init_le_foldl_max : ∀ (l : List Nat) (a : Nat), a ≤ l.foldl Nat.max a := by
  intro l
  induction l with
  | nil => intro a; exact le_refl a
  | cons b t ih =>
    intro a
    exact le_trans (Nat.le_max_left a b) (ih (Nat.max a b))

theorem le_foldl_max : ∀ (l : List Nat) (a x : Nat), x ∈ l → x ≤ l.foldl Nat.max a := by
  intro l
  induction l with
  | nil => intro a x hx; cases hx
  | cons b t ih =>
    intro a x hx
    rcases List.mem_cons.mp hx with rfl | hx
    · exact le_trans (Nat.le_max_right a x) (init_le_foldl_max t (Nat.max a x))
    · exact ih (Nat.max a b) x hx

theorem foldl_max_mem : ∀ (l : List Nat) (a : Nat),
    l.foldl Nat.max a = a ∨ l.foldl Nat.max a ∈ l := by
  intro l
  induction l with
  | nil => intro a; exact Or.inl rfl
  | cons b t ih =>
    intro a
    rcases ih (Nat.max a b) with h | h
    · by_cases hab : a ≤ b
      · right
        have hmb : Nat.max a b = b := Nat.max_eq_right hab
        show t.foldl Nat.max (Nat.max a b) ∈ b :: t
        rw [h, hmb]
        exact List.mem_cons_self b t
      · left
        have hma : Nat.max a b = a := Nat.max_eq_left (by omega)
        show t.foldl Nat.max (Nat.max a b) = a
        rw [h, hma]
    · right
      exact List.mem_cons_of_mem b h

theorem maxGenLE_spec {gens : List (Nat × Nat)} {s v : Nat}
    (h : maxGenLE gens s v ≠ 0) :
    (s, maxGenLE gens s v) ∈ gens ∧ maxGenLE gens s v ≤ v := by
  rcases foldl_max_mem ((gens.filter (fun g => g.1 == s && decide (g.2 ≤ v))).map (·.2)) 0
    with hm | hm
  · exact absurd hm h
  · rcases List.mem_map.mp hm with ⟨g, hg, hg2⟩
    rcases List.mem_filter.mp hg with ⟨hgm, hcond⟩
    simp only [Bool.and_eq_true, beq_iff_eq, decide_eq_true_eq] at hcond
    have hg2' : g.2 = maxGenLE gens s v := hg2
    constructor
    · rw [← hg2', ← hcond.1]
      exact hgm
    · rw [← hg2']
      exact hcond.2

theorem le_maxGenLE {gens : List (Nat × Nat)} {s v w : Nat}
    (hm : (s, w) ∈ gens) (hw : w ≤ v) : w ≤ maxGenLE gens s v := by
  apply le_foldl_max
  exact List.mem_map.mpr ⟨(s, w), List.mem_filter.mpr ⟨hm, by simp [hw]⟩, rfl⟩

theorem maxGenLT_spec {gens : List (Nat × Nat)} {s r : Nat}
    (h : maxGenLT gens s r ≠ 0) :
    (s, maxGenLT gens s r) ∈ gens ∧ maxGenLT gens s r < r := by
  rcases foldl_max_mem ((gens.filter (fun g => g.1 == s && decide (g.2 < r))).map (·.2)) 0
    with hm | hm
  · exact absurd hm h
  · rcases List.mem_map.mp hm with ⟨g, hg, hg2⟩
    rcases List.mem_filter.mp hg with ⟨hgm, hcond⟩
    simp only [Bool.and_eq_true, beq_iff_eq, decide_eq_true_eq] at hcond
    have hg2' : g.2 = maxGenLT gens s r := hg2
    constructor
    · rw [← hg2', ← hcond.1]
      exact hgm
    · rw [← hg2']
      exact hcond.2

theorem le_maxGenLT {gens : List (Nat × Nat)} {s r w : Nat}
    (hm : (s, w) ∈ gens) (hw : w < r) : w ≤ maxGenLT gens s r := by
  apply le_foldl_max
  exact List.mem_map.mpr ⟨(s, w), List.mem_filter.mpr ⟨hm, by simp [hw]⟩, rfl⟩

/-- After pruning at retention bound `r`, the newest generation at most
`r` of any segment survives: it is either at least `r` (kept), or it is
the newest generation strictly below `r` (kept). -/
theorem maxGenLE_mem_pruneGens {gens : List (Nat × Nat)} {s r : Nat}
    (h : maxGenLE gens s r ≠ 0) :
    (s, maxGenLE gens s r) ∈ pruneGens gens r := by
  obtain ⟨hmem, hle⟩ := maxGenLE_spec h
  apply List.mem_filter.mpr
  refine ⟨hmem, ?_⟩
  simp only [Bool.or_eq_true, decide_eq_true_eq, beq_iff_eq]
  rcases Nat.lt_or_ge (maxGenLE gens s r) r with hlt | hge
  · right
    have h1 : maxGenLE gens s r ≤ maxGenLT gens s r := le_maxGenLT hmem hlt
    have h2 : maxGenLT gens s r ≤ maxGenLE gens s r := by
      have hne : maxGenLT gens s r ≠ 0 := by omega
      obtain ⟨hm2, hlt2⟩ := maxGenLT_spec hne
      exact le_maxGenLE hm2 (by omega)
    omega
  · left
    omega

theorem openIter_spec {t : Tablet V} {v : Nat} {it : TabIter}
    (h : openIter t v = some it) :
    validVersion t v ∧ it = ⟨v, (contentAt t v).length, neededGens t v⟩ := by
  unfold openIter at h
  by_cases hv : validVersion t v
  · rw [if_pos hv] at h
    exact ⟨hv, (Option.some.injEq _ _ ▸ h).symm⟩
  · rw [if_neg hv] at h
    cases h

/-- C5 (amended): expired-version GC. After `remove_expired_versions`,
exactly one version is retained and `max_version` is unchanged; reads at
`max_version`, and previously opened iterators at the retained version,
still return the correct row count; new reads at expired versions fail
explicitly; previously opened iterators at expired versions either fail
explicitly or still return the correct row count captured at open time —
never wrong data (the repository's test shows the iterator at expired
version 3 still reading correctly while the one at version 2 fails); the
post-GC state survives reload from the persistent meta store. The
hypothesis `h0` states that every applied segment has at least one
delete-vector generation, which holds for every tablet built by the
apply pipeline. -/
theorem c5_remove_expired_versions (t : Tablet V) (now : Nat)
    (h0 : ∀ i, i < max_version t - t.baseVer → maxGenLE t.gens i (max_version t) ≠ 0) :
    version_history_count (remove_expired_versions t now) = 1 ∧
    max_version (remove_expired_versions t now) = max_version t ∧
    (∀ c, read_tablet t (max_version t) = some c →
      read_tablet (remove_expired_versions t now) (max_version t) = some c) ∧
    (∀ v, v < max_version t → read_tablet (remove_expired_versions t now) v = none) ∧
    (∀ it, openIter t (max_version t) = some it →
      readIter (remove_expired_versions t now) it = some it.cnt) ∧
    (∀ v it, openIter t v = some it →
      readIter (remove_expired_versions t now) it = none ∨
      readIter (remove_expired_versions t now) it = read_tablet t v) ∧
    load_from_store (save_meta (remove_expired_versions t now))
      = remove_expired_versions t now := by
  refine ⟨rfl, rfl, ?_, ?_, ?_, ?_, rfl⟩
  · intro c hc
    unfold read_tablet at hc ⊢
    by_cases hv : validVersion t (max_version t)
    · rw [if_pos hv] at hc
      rw [if_pos ⟨le_refl _, hv.2.1, le_refl _⟩]
      exact hc
    · rw [if_neg hv] at hc
      cases hc
  · intro v hv
    unfold read_tablet
    rw [if_neg ?_]
    intro hcon
    have : max_version t ≤ v := hcon.1
    omega
  · intro it hit
    obtain ⟨hv, hite⟩ := openIter_spec hit
    subst hite
    unfold readIter
    rw [if_pos ?_]
    apply List.all_eq_true.mpr
    intro g hg
    simp only [neededGens, List.mem_map, List.mem_range] at hg
    obtain ⟨i, hi, rfl⟩ := hg
    simp only [decide_eq_true_eq]
    exact maxGenLE_mem_pruneGens (h0 i hi)
  · intro v it hit
    obtain ⟨hv, hite⟩ := openIter_spec hit
    subst hite
    unfold readIter
    by_cases hall : (neededGens t v).all
        (fun g => decide (g ∈ (remove_expired_versions t now).gens)) = true
    · right
      rw [if_pos hall]
      unfold read_tablet
      rw [if_pos hv]
    · left
      rw [if_neg hall]

/-- Witness for C5: three commits of the keys 0, 1, 2 at versions 2, 3,
4 followed by GC: one version retained, `max_version` still 4, reading
at 4 still yields 3 rows, new reads at versions 2 and 3 fail, the
iterator opened at 4 still reads 3 rows, and the iterator opened at 3
reads correctly rather than returning wrong data. -/
theorem c5_remove_expired_versions_witness :
    version_history_count (remove_expired_versions (commitAll (initTablet (V := Int) 1 2)
      [(2, keyRowset [0, 1, 2]), (3, keyRowset [0, 1, 2]), (4, keyRowset [0, 1, 2])]) 0)
      = 1 ∧
    read_tablet (remove_expired_versions (commitAll (initTablet (V := Int) 1 2)
      [(2, keyRowset [0, 1, 2]), (3, keyRowset [0, 1, 2]), (4, keyRowset [0, 1, 2])]) 0) 3
      = none := by
  have h := c5_remove_expired_versions (commitAll (initTablet (V := Int) 1 2)
    [(2, keyRowset [0, 1, 2]), (3, keyRowset [0, 1, 2]), (4, keyRowset [0, 1, 2])]) 0
    (by decide)
  exact ⟨h.1, h.2.2.2.1 3 (by decide)⟩

/-- Counterexample for C5 as stated: after the GC of the test scenario
(keys 0, 1, 2 committed at versions 2, 3, 4, then
`remove_expired_versions`), version 3 is expired — only one version is
retained, `max_version` is 4 and a new read at 3 fails — yet the
previously opened iterator at version 3 still returns the correct row
count `some 3` instead of failing: the repository's own test asserts
exactly this success (`read_until_eof(iter_v2) == N`, "delete vector v2
still valid"), refuting the claim that previously opened iterators at
expired versions return an error. -/
theorem c5_counterexample_expired_iterator_reads :
    version_history_count (remove_expired_versions (commitAll (initTablet (V := Int) 1 2)
      [(2, keyRowset [0, 1, 2]), (3, keyRowset [0, 1, 2]), (4, keyRowset [0, 1, 2])]) 0)
      = 1 ∧
    max_version (remove_expired_versions (commitAll (initTablet (V := Int) 1 2)
      [(2, keyRowset [0, 1, 2]), (3, keyRowset [0, 1, 2]), (4, keyRowset [0, 1, 2])]) 0)
      = 4 ∧
    read_tablet (remove_expired_versions (commitAll (initTablet (V := Int) 1 2)
      [(2, keyRowset [0, 1, 2]), (3, keyRowset [0, 1, 2]), (4, keyRowset [0, 1, 2])]) 0) 3
      = none ∧
    (openIter (commitAll (initTablet (V := Int) 1 2)
      [(2, keyRowset [0, 1, 2]), (3, keyRowset [0, 1, 2]), (4, keyRowset [0, 1, 2])]) 3).map
      (readIter (remove_expired_versions (commitAll (initTablet (V := Int) 1 2)
        [(2, keyRowset [0, 1, 2]), (3, keyRowset [0, 1, 2]), (4, keyRowset [0, 1, 2])]) 0))
      = some (some 3) ∧
    (openIter (commitAll (initTablet (V := Int) 1 2)
      [(2, keyRowset [0, 1, 2]), (3, keyRowset [0, 1, 2]), (4, keyRowset [0, 1, 2])]) 2).map
      (readIter (remove_expired_versions (commitAll (initTablet (V := Int) 1 2)
        [(2, keyRowset [0, 1, 2]), (3, keyRowset [0, 1, 2]), (4, keyRowset [0, 1, 2])]) 0))
      = some none := by
  decide

/-! ## Lemmas: the rowset merger -/

theorem chunksOf_go_flatten (n : Nat) :
    ∀ (fuel : Nat) (l : List α), l.length ≤ fuel → (chunksOf.go n fuel l).flatten = l := by
  intro fuel
  induction fuel with
  | zero =>
    intro l hl
    have : l = [] := List.eq_nil_of_length_eq_zero (Nat.le_zero.mp hl)
    subst this
    rfl
  | succ fuel ih =>
    intro l hl
    cases l with
    | nil => rfl
    | cons a t =>
      show (if n = 0 then [a :: t] else (a :: t).take n :: chunksOf.go n fuel ((a :: t).drop n)).flatten
        = a :: t
      by_cases hn : n = 0
      · rw [if_pos hn]
        simp
      · rw [if_neg hn]
        rw [List.flatten_cons]
        have hlen : ((a :: t).drop n).length ≤ fuel := by
          have hd := List.length_drop n (a :: t)
          simp only [List.length_cons] at hd hl
          omega
        rw [ih ((a :: t).drop n) hlen]
        exact List.take_append_drop n (a :: t)

theorem chunksOf_flatten (n : Nat) (l : List α) : (chunksOf n l).flatten = l :=
  chunksOf_go_flatten n l.length l (le_refl _)

theorem flatten_map_map (L : List (List γ)) (f : γ → δ) :
    (L.map (List.map f)).flatten = L.flatten.map f := by
  induction L with
  | nil => rfl
  | cons h t ih =>
    rw [List.map_cons, List.flatten_cons, List.flatten_cons, List.map_append, ih]

theorem getD_drop_cons : ∀ (l : List α) (j : Nat) (a : α) (t : List α) (d : α),
    l.drop j = a :: t → l.getD j d = a ∧ l.drop (j + 1) = t := by
  intro l j
  induction j generalizing l with
  | zero =>
    intro a t d h
    rw [List.drop_zero] at h
    subst h
    exact ⟨rfl, rfl⟩
  | succ j ih =>
    intro a t d h
    cases l with
    | nil => simp at h
    | cons b bs =>
      rw [List.drop_succ_cons] at h
      obtain ⟨h1, h2⟩ := ih bs a t d h
      exact ⟨h1, by rw [List.drop_succ_cons]; exact h2⟩

theorem minHeadKey_mapPayload (φ : α → β) :
    ∀ ls : List (List (Int × α)), minHeadKey (mapPayload φ ls) = minHeadKey ls := by
  intro ls
  induction ls with
  | nil => rfl
  | cons l t ih =>
    show minHeadKey (List.map (fun e => (e.1, φ e.2)) l :: mapPayload φ t) = _
    unfold minHeadKey at ih ⊢
    rw [List.foldr_cons, List.foldr_cons, ih]
    cases l with
    | nil => rfl
    | cons e es => rfl

theorem winner_foldl_mapPayload (φ : α → β) (k : Int) :
    ∀ (ls : List (List (Int × α))) (acc : Option α),
    (mapPayload φ ls).foldl
      (fun acc l => match l.head? with
        | some e => if e.1 = k then some e.2 else acc
        | none => acc) (acc.map φ)
    = (ls.foldl
      (fun acc l => match l.head? with
        | some e => if e.1 = k then some e.2 else acc
        | none => acc) acc).map φ := by
  intro ls
  induction ls with
  | nil => intro acc; rfl
  | cons l t ih =>
    intro acc
    show (mapPayload φ t).foldl _ _ = _
    cases l with
    | nil =>
      exact ih acc
    | cons e es =>
      show (mapPayload φ t).foldl _
          (if e.1 = k then some (φ e.2) else acc.map φ) = _
      by_cases he : e.1 = k
      · rw [if_pos he]
        have := ih (some e.2)
        simp only [Option.map_some'] at this
        rw [this]
        show _ = (t.foldl _ (if e.1 = k then some e.2 else acc)).map φ
        rw [if_pos he]
      · rw [if_neg he]
        rw [ih acc]
        show _ = (t.foldl _ (if e.1 = k then some e.2 else acc)).map φ
        rw [if_neg he]

theorem winner_mapPayload (φ : α → β) (ls : List (List (Int × α))) (k : Int) :
    winner (mapPayload φ ls) k = (winner ls k).map φ := by
  have := winner_foldl_mapPayload φ k ls none
  simpa [winner] using this

theorem popKey_mapPayload (φ : α → β) (ls : List (List (Int × α))) (k : Int) :
    popKey (mapPayload φ ls) k = mapPayload φ (popKey ls k) := by
  induction ls with
  | nil => rfl
  | cons l t ih =>
    show (match List.map (fun e => (e.1, φ e.2)) l with
      | [] => ([] : List (Int × β))
      | e :: rest => if e.1 = k then rest else e :: rest) :: popKey (mapPayload φ t) k
      = _
    rw [ih]
    cases l with
    | nil => rfl
    | cons e es =>
      show (if e.1 = k then List.map (fun e => (e.1, φ e.2)) es
        else (e.1, φ e.2) :: List.map (fun e => (e.1, φ e.2)) es) :: mapPayload φ (popKey t k)
        = mapPayload φ ((if e.1 = k then es else e :: es) :: popKey t k)
      by_cases he : e.1 = k
      · rw [if_pos he, if_pos he]
        rfl
      · rw [if_neg he, if_neg he]
        rfl

theorem totalLen_mapPayload (φ : α → β) (ls : List (List (Int × α))) :
    totalLen (mapPayload φ ls) = totalLen ls := by
  unfold totalLen mapPayload
  rw [List.map_map]
  apply congrArg
  apply List.map_congr_left
  intro l _
  simp

theorem kMergeAux_mapPayload (φ : α → β) :
    ∀ (fuel : Nat) (ls : List (List (Int × α))),
    kMergeAux fuel (mapPayload φ ls) = (kMergeAux fuel ls).map (fun e => (e.1, φ e.2)) := by
  intro fuel
  induction fuel with
  | zero => intro ls; rfl
  | succ fuel ih =>
    intro ls
    show (match minHeadKey (mapPayload φ ls) with
      | none => ([] : List (Int × β))
      | some k => match winner (mapPayload φ ls) k with
        | none => []
        | some a => (k, a) :: kMergeAux fuel (popKey (mapPayload φ ls) k))
      = (match minHeadKey ls with
        | none => ([] : List (Int × α))
        | some k => match winner ls k with
          | none => []
          | some a => (k, a) :: kMergeAux fuel (popKey ls k)).map
        (fun (e : Int × α) => (e.1, φ e.2))
    rw [minHeadKey_mapPayload]
    cases hk : minHeadKey ls with
    | none => rfl
    | some k =>
      dsimp only
      rw [winner_mapPayload]
      cases hw : winner ls k with
      | none => rfl
      | some a =>
        dsimp only [Option.map_some']
        rw [popKey_mapPayload, ih]
        rfl

theorem kMerge_mapPayload (φ : α → β) (ls : List (List (Int × α))) :
    kMerge (mapPayload φ ls) = (kMerge ls).map (fun e => (e.1, φ e.2)) := by
  unfold kMerge
  rw [totalLen_mapPayload]
  exact kMergeAux_mapPayload φ (totalLen ls) ls

theorem tagList_untag (inputs : List (List (Int × List Int))) (i : Nat) :
    ∀ (l : List (Int × List Int)) (j : Nat) (l' : List (Int × List Int)),
    inputs.getD i [] = l' → l'.drop j = l →
    (tagList i j l).map (fun e => (e.1, rowAt inputs e.2)) = l := by
  intro l
  induction l with
  | nil => intro j l' _ _; rfl
  | cons p t ih =>
    intro j l' hi hd
    obtain ⟨h1, h2⟩ := getD_drop_cons l' j p t (0, []) hd
    show (p.1, rowAt inputs (i, j)) :: (tagList i (j + 1) t).map (fun e => (e.1, rowAt inputs e.2))
      = p :: t
    have hr : rowAt inputs (i, j) = p.2 := by
      unfold rowAt
      show ((inputs.getD i []).getD j (0, [])).2 = p.2
      rw [hi, h1]
    rw [hr, ih (j + 1) l' hi h2]

theorem tagAll_untag (inputs : List (List (Int × List Int))) :
    ∀ (rest : List (List (Int × List Int))) (i : Nat), inputs.drop i = rest →
    mapPayload (rowAt inputs) (tagAll i rest) = rest := by
  intro rest
  induction rest with
  | nil => intro i _; rfl
  | cons l t ih =>
    intro i hd
    obtain ⟨h1, h2⟩ := getD_drop_cons inputs i l t [] hd
    show (tagList i 0 l).map (fun e => (e.1, rowAt inputs e.2))
      :: mapPayload (rowAt inputs) (tagAll (i + 1) t) = l :: t
    rw [tagList_untag inputs i l 0 l h1 (by rw [List.drop_zero]), ih (i + 1) h2]

theorem minHeadKey_le {ls : List (List (Int × α))} {l : List (Int × α)} {hd : Int × α}
    (hl : l ∈ ls) (hh : l.head? = some hd) :
    ∃ m, minHeadKey ls = some m ∧ m ≤ hd.1 := by
  induction ls with
  | nil => cases hl
  | cons l0 t ih =>
    have he : minHeadKey (l0 :: t) = (match l0.head? with
      | none => minHeadKey t
      | some e => match minHeadKey t with
        | none => some e.1
        | some k => some (min e.1 k)) := rfl
    rcases List.mem_cons.mp hl with rfl | hl
    · rw [he, hh]
      cases ht : minHeadKey t with
      | none => exact ⟨hd.1, rfl, le_refl _⟩
      | some k => exact ⟨min hd.1 k, rfl, min_le_left _ _⟩
    · obtain ⟨m, hm, hle⟩ := ih hl
      rw [he]
      cases hh0 : l0.head? with
      | none => exact ⟨m, hm, hle⟩
      | some e =>
        rw [hm]
        exact ⟨min e.1 m, rfl, le_trans (min_le_right _ _) hle⟩

theorem minHeadKey_is_head {ls : List (List (Int × α))} {m : Int}
    (h : minHeadKey ls = some m) :
    ∃ l ∈ ls, ∃ hd, l.head? = some hd ∧ hd.1 = m := by
  induction ls with
  | nil => cases h
  | cons l0 t ih =>
    have he : minHeadKey (l0 :: t) = (match l0.head? with
      | none => minHeadKey t
      | some e => match minHeadKey t with
        | none => some e.1
        | some k => some (min e.1 k)) := rfl
    rw [he] at h
    cases hh : l0.head? with
    | none =>
      rw [hh] at h
      obtain ⟨l, hl, hd, h1, h2⟩ := ih h
      exact ⟨l, List.mem_cons_of_mem _ hl, hd, h1, h2⟩
    | some e =>
      rw [hh] at h
      cases ht : minHeadKey t with
      | none =>
        rw [ht] at h
        simp only [Option.some.injEq] at h
        exact ⟨l0, List.mem_cons_self _ _, e, hh, h⟩
      | some k =>
        rw [ht] at h
        simp only [Option.some.injEq] at h
        by_cases hek : e.1 ≤ k
        · rw [min_eq_left hek] at h
          exact ⟨l0, List.mem_cons_self _ _, e, hh, h⟩
        · rw [min_eq_right (by omega)] at h
          obtain ⟨l, hl, hd, h1, h2⟩ := ih (by rw [ht, h])
          exact ⟨l, List.mem_cons_of_mem _ hl, hd, h1, h2⟩

theorem winner_foldl_eq {k : Int} {a : α} :
    ∀ (ls : List (List (Int × α))) (acc : Option α),
    (∀ l ∈ ls, ∀ hd : Int × α, l.head? = some hd → hd.1 = k → hd.2 = a) →
    ((∃ l ∈ ls, ∃ hd : Int × α, l.head? = some hd ∧ hd.1 = k) ∨ acc = some a) →
    ls.foldl (fun acc l => match l.head? with
      | some e => if e.1 = k then some e.2 else acc
      | none => acc) acc = some a := by
  intro ls
  induction ls with
  | nil =>
    intro acc _ hex
    rcases hex with ⟨l, hl, _⟩ | hacc
    · cases hl
    · exact hacc
  | cons l0 t ih =>
    intro acc hall hex
    rw [List.foldl_cons]
    cases hh : l0.head? with
    | none =>
      dsimp only
      apply ih acc (fun l hl => hall l (List.mem_cons_of_mem _ hl))
      rcases hex with ⟨l, hl, hd, h1, h2⟩ | hacc
      · rcases List.mem_cons.mp hl with rfl | hl
        · rw [hh] at h1; cases h1
        · exact Or.inl ⟨l, hl, hd, h1, h2⟩
      · exact Or.inr hacc
    | some e =>
      dsimp only
      by_cases hek : e.1 = k
      · rw [if_pos hek]
        have hea : e.2 = a := hall l0 (List.mem_cons_self _ _) e hh hek
        apply ih (some e.2) (fun l hl => hall l (List.mem_cons_of_mem _ hl))
        exact Or.inr (by rw [hea])
      · rw [if_neg hek]
        apply ih acc (fun l hl => hall l (List.mem_cons_of_mem _ hl))
        rcases hex with ⟨l, hl, hd, h1, h2⟩ | hacc
        · rcases List.mem_cons.mp hl with rfl | hl
          · rw [hh] at h1
            simp only [Option.some.injEq] at h1
            exact absurd (h1 ▸ h2) hek
          · exact Or.inl ⟨l, hl, hd, h1, h2⟩
        · exact Or.inr hacc

theorem winner_eq_some {ls : List (List (Int × α))} {k : Int} {a : α}
    (hall : ∀ l ∈ ls, ∀ hd : Int × α, l.head? = some hd → hd.1 = k → hd.2 = a)
    (hex : ∃ l ∈ ls, ∃ hd : Int × α, l.head? = some hd ∧ hd.1 = k) :
    winner ls k = some a :=
  winner_foldl_eq ls none hall (Or.inl hex)

theorem minHeadKey_all_nil {ls : List (List (Int × α))} (h : ∀ l ∈ ls, l = []) :
    minHeadKey ls = none := by
  induction ls with
  | nil => rfl
  | cons l t ih =>
    have hl : l = [] := h l (List.mem_cons_self _ _)
    subst hl
    show minHeadKey ([] :: t) = none
    have he : minHeadKey ([] :: t) = minHeadKey t := rfl
    rw [he]
    exact ih (fun l hl => h l (List.mem_cons_of_mem _ hl))

theorem sum_map_add (L : List γ) (f g : γ → Nat) :
    (L.map (fun x => f x + g x)).sum = (L.map f).sum + (L.map g).sum := by
  induction L with
  | nil => rfl
  | cons a t ih =>
    simp only [List.map_cons, List.sum_cons, ih]
    omega

theorem sum_indicator_range : ∀ (n s : Nat), s < n →
    ((List.range n).map (fun i => if s = i then 1 else 0)).sum = 1 := by
  intro n
  induction n with
  | zero => intro s h; omega
  | succ n ih =>
    intro s hs
    rw [List.range_succ, List.map_append, List.sum_append]
    by_cases h : s = n
    · subst h
      have hz : ((List.range s).map (fun i => if s = i then 1 else 0)).sum = 0 := by
        apply List.sum_eq_zero
        intro x hx
        rcases List.mem_map.mp hx with ⟨i, hi, rfl⟩
        rw [if_neg (by have := List.mem_range.mp hi; omega)]
      rw [hz]
      simp
    · rw [ih s (by omega)]
      simp [h]

theorem totalLen_parts (n : Nat) :
    ∀ (S : List (Int × Nat × V)), (∀ e ∈ S, e.2.1 < n) →
    totalLen ((List.range n).map (fun i => S.filter (fun e => e.2.1 == i))) = S.length := by
  intro S
  induction S with
  | nil =>
    intro _
    unfold totalLen
    rw [List.map_map]
    apply List.sum_eq_zero
    intro x hx
    rcases List.mem_map.mp hx with ⟨i, _, rfl⟩
    rfl
  | cons e T ih =>
    intro hseg
    have hpt : ∀ i : Nat, ((e :: T).filter (fun x => x.2.1 == i)).length
        = (if e.2.1 = i then 1 else 0) + (T.filter (fun x => x.2.1 == i)).length := by
      intro i
      rw [List.filter_cons]
      by_cases h : e.2.1 = i
      · rw [if_pos (by simp [h]), if_pos h, List.length_cons]
        omega
      · rw [if_neg (by simp [h]), if_neg h]
        omega
    unfold totalLen at ih ⊢
    rw [List.map_map] at ih ⊢
    have hstep : ((List.range n).map
        (fun i => List.length ((e :: T).filter (fun x => x.2.1 == i)))).sum
        = ((List.range n).map (fun i => (if e.2.1 = i then 1 else 0)
          + (T.filter (fun x => x.2.1 == i)).length)).sum := by
      apply congrArg
      exact List.map_congr_left (fun i _ => hpt i)
    show ((List.range n).map
      (fun i => List.length ((e :: T).filter (fun x => x.2.1 == i)))).sum = _
    rw [hstep, sum_map_add, sum_indicator_range n e.2.1 (hseg e (List.mem_cons_self _ _))]
    have hT : ((List.range n).map
        (fun i => List.length (T.filter (fun x => x.2.1 == i)))).sum = T.length :=
      ih (fun x hx => hseg x (List.mem_cons_of_mem _ hx))
    show 1 + ((List.range n).map
      (fun i => List.length (T.filter (fun x => x.2.1 == i)))).sum = (e :: T).length
    rw [hT]
    simp only [List.length_cons]
    omega

theorem kMergeAux_succ (fuel : Nat) (ls : List (List (Int × α))) :
    kMergeAux (fuel + 1) ls = (match minHeadKey ls with
      | none => []
      | some k =>
        match winner ls k with
        | none => []
        | some a => (k, a) :: kMergeAux fuel (popKey ls k)) := rfl

theorem kMergeAux_parts (n : Nat) :
    ∀ (fuel : Nat) (S : List (Int × Nat × V)), S.length ≤ fuel →
    List.Pairwise (fun a b => a.1 < b.1) S →
    (∀ e ∈ S, e.2.1 < n) →
    kMergeAux fuel ((List.range n).map (fun i => S.filter (fun e => e.2.1 == i))) = S := by
  intro fuel
  induction fuel with
  | zero =>
    intro S hl _ _
    have : S = [] := List.eq_nil_of_length_eq_zero (Nat.le_zero.mp hl)
    subst this
    rfl
  | succ fuel ih =>
    intro S hl hp hseg
    cases S with
    | nil =>
      have hnone : minHeadKey ((List.range n).map
          (fun i => ([] : List (Int × Nat × V)).filter (fun e => e.2.1 == i))) = none := by
        apply minHeadKey_all_nil
        intro l hls
        rcases List.mem_map.mp hls with ⟨i, _, rfl⟩
        rfl
      rw [kMergeAux_succ, hnone]
    | cons e T =>
      rw [List.pairwise_cons] at hp
      have hs0 : e.2.1 < n := hseg e (List.mem_cons_self _ _)
      have hf0 : (e :: T).filter (fun x => x.2.1 == e.2.1)
          = e :: T.filter (fun x => x.2.1 == e.2.1) := by
        rw [List.filter_cons, if_pos (by simp)]
      have hmem0 : (e :: T).filter (fun x => x.2.1 == e.2.1)
          ∈ (List.range n).map (fun i => (e :: T).filter (fun x => x.2.1 == i)) :=
        List.mem_map.mpr ⟨e.2.1, List.mem_range.mpr hs0, rfl⟩
      have hhead0 : ((e :: T).filter (fun x => x.2.1 == e.2.1)).head? = some e := by
        rw [hf0]
        rfl
      have hmemS : ∀ l ∈ (List.range n).map (fun i => (e :: T).filter (fun x => x.2.1 == i)),
          ∀ x ∈ l, x ∈ e :: T := by
        intro l hls x hx
        rcases List.mem_map.mp hls with ⟨i, _, rfl⟩
        exact (List.mem_filter.mp hx).1
      have hkeylb : ∀ l ∈ (List.range n).map (fun i => (e :: T).filter (fun x => x.2.1 == i)),
          ∀ hd : Int × Nat × V, l.head? = some hd → e.1 ≤ hd.1 := by
        intro l hls hd hh
        have hmem : hd ∈ e :: T := hmemS l hls hd (List.mem_of_mem_head? hh)
        rcases List.mem_cons.mp hmem with rfl | hmem
        · exact le_refl _
        · exact le_of_lt (hp.1 hd hmem)
      have hmin : minHeadKey ((List.range n).map
          (fun i => (e :: T).filter (fun x => x.2.1 == i))) = some e.1 := by
        obtain ⟨m, hm, hle⟩ := minHeadKey_le hmem0 hhead0
        obtain ⟨l, hls, hd, hh, hk⟩ := minHeadKey_is_head hm
        have := hkeylb l hls hd hh
        rw [hm]
        have : m = e.1 := by omega
        rw [this]
      have hwin : winner ((List.range n).map
          (fun i => (e :: T).filter (fun x => x.2.1 == i))) e.1 = some e.2 := by
        apply winner_eq_some
        · intro l hls hd hh hk
          have hmem : hd ∈ e :: T := hmemS l hls hd (List.mem_of_mem_head? hh)
          rcases List.mem_cons.mp hmem with rfl | hmem
          · rfl
          · exact absurd hk (by have := hp.1 hd hmem; omega)
        · exact ⟨_, hmem0, e, hhead0, rfl⟩
      have hpop : popKey ((List.range n).map
          (fun i => (e :: T).filter (fun x => x.2.1 == i))) e.1
          = (List.range n).map (fun i => T.filter (fun x => x.2.1 == i)) := by
        unfold popKey
        rw [List.map_map]
        apply List.map_congr_left
        intro i _
        dsimp only [Function.comp]
        by_cases hi : e.2.1 = i
        · rw [List.filter_cons, if_pos (by simp [hi])]
          dsimp only
          rw [if_pos rfl]
        · rw [List.filter_cons, if_neg (by simp [hi])]
          cases hc : T.filter (fun x => x.2.1 == i) with
          | nil => rfl
          | cons f rest =>
            have hfT : f ∈ T := (List.mem_filter.mp (hc ▸ List.mem_cons_self f rest)).1
            have : e.1 < f.1 := hp.1 f hfT
            dsimp only
            rw [if_neg (by omega)]
      rw [kMergeAux_succ, hmin]
      dsimp only
      rw [hwin]
      dsimp only
      rw [hpop]
      rw [ih T (by simpa using Nat.le_of_succ_le_succ (by simpa using hl)) hp.2
        (fun x hx => hseg x (List.mem_cons_of_mem _ hx))]

theorem kMerge_parts (n : Nat) (S : List (Int × Nat × V))
    (hp : List.Pairwise (fun a b => a.1 < b.1) S)
    (hseg : ∀ e ∈ S, e.2.1 < n) :
    kMerge ((List.range n).map (fun i => S.filter (fun e => e.2.1 == i))) = S := by
  unfold kMerge
  rw [totalLen_parts n S hseg]
  exact kMergeAux_parts n S.length S (le_refl _) hp hseg

/-- C2: the horizontal and the vertical merge of `compaction_merge_rowsets`
are logically equivalent for every set of input rowset streams, every
chunk size and every column-group size. First, for arbitrary inputs, the
key column produced by the vertical merge's key pass equals the key
column of the horizontal merge, and every column gathered by the
vertical merge's later passes (in groups of at most `maxPerGroup`
columns) equals the corresponding column of the horizontal merge's full
rows — the two strategies differ only in physical layout, never in
content. Second, on the live per-rowset streams of any tablet built over
an empty base image, the merged output is exactly the surviving primary
keys in sorted key order with their latest visible values (keys deleted
by later delete-lists are excluded, being absent from the primary-key
state). -/
theorem c2_merge_equivalence :
    (∀ (inputs : List (List (Int × List Int))) (hChunk vChunk ncols g : Nat),
      ((vertical_key_chunks inputs vChunk).flatten).map (fun e => e.1)
        = ((horizontal_merge_chunks inputs hChunk).flatten).map (fun e => e.1) ∧
      (vertical_column_groups inputs
          (((vertical_key_chunks inputs vChunk).flatten).map (fun e => e.2)) ncols g).flatten
        = (List.range ncols).map
            (fun c => ((horizontal_merge_chunks inputs hChunk).flatten).map
              (fun r => r.2.getD c 0))) ∧
    (∀ (t : Tablet (List Int)) (hChunk : Nat), t.baseContent = [] →
      (horizontal_merge_chunks (liveInputs t) hChunk).flatten
        = (pkStateT t).map (fun e => (e.1, e.2.2))) := by
  constructor
  · intro inputs hChunk vChunk ncols g
    have h1 : (horizontal_merge_chunks inputs hChunk).flatten = kMerge inputs :=
      chunksOf_flatten _ _
    have h2 : (vertical_key_chunks inputs vChunk).flatten = kMerge (tagAll 0 inputs) :=
      chunksOf_flatten _ _
    have hu : mapPayload (rowAt inputs) (tagAll 0 inputs) = inputs :=
      tagAll_untag inputs inputs 0 (by rw [List.drop_zero])
    have hnat : kMerge inputs
        = (kMerge (tagAll 0 inputs)).map (fun e => (e.1, rowAt inputs e.2)) := by
      conv_lhs => rw [← hu]
      exact kMerge_mapPayload _ _
    constructor
    · rw [h1, h2, hnat, List.map_map]
      rfl
    · unfold vertical_column_groups
      rw [flatten_map_map, chunksOf_flatten]
      apply List.map_congr_left
      intro c _
      unfold vColumn
      rw [h2, h1, hnat, List.map_map, List.map_map]
      rfl
  · intro t hChunk hb
    have h1 : (horizontal_merge_chunks (liveInputs t) hChunk).flatten
        = kMerge (liveInputs t) := chunksOf_flatten _ _
    have hli : liveInputs t
        = mapPayload (fun p : Nat × List Int => p.2)
          ((List.range t.rowsets.length).map
            (fun i => (pkStateT t).filter (fun e => e.2.1 == i))) := by
      unfold liveInputs mapPayload
      rw [List.map_map]
      rfl
    have hsorted : List.Pairwise (fun a b : Int × Nat × List Int => a.1 < b.1) (pkStateT t) := by
      have hs : sortedPk (pkStateT t) := by
        unfold pkStateT
        rw [hb]
        exact sortedPk_pkState List.Pairwise.nil
      exact hs
    have hseg : ∀ e ∈ pkStateT t, e.2.1 < t.rowsets.length := by
      unfold pkStateT pkState
      apply mem_pkStateAux_seg
      · intro e he
        rw [hb] at he
        cases he
      · omega
    rw [h1, hli, kMerge_mapPayload,
      kMerge_parts t.rowsets.length (pkStateT t) hsorted hseg]

/-- Instantiating the merge-equivalence: a tablet whose two committed
rowsets overlap on key 2 (with a delete of key 0 in the second) merges —
horizontally, in 2-row chunks — to exactly its surviving sorted
primary-key state, and the vertical key pass agrees with the horizontal
one on the same inputs. -/
theorem c2_merge_equivalence_witness :
    (horizontal_merge_chunks (liveInputs (commitAll (initTablet 7 0)
      [(2, ⟨[((0 : Int), [5]), (2, [6])], []⟩),
       (3, ⟨[((1 : Int), [7]), (2, [8])], [0]⟩)])) 2).flatten
      = [((1 : Int), [7]), (2, [8])] ∧
    ((vertical_key_chunks [[((0 : Int), [5]), (2, [6])], [((1 : Int), [7]), (2, [8])]] 3).flatten).map
        (fun e => e.1)
      = ((horizontal_merge_chunks [[((0 : Int), [5]), (2, [6])], [((1 : Int), [7]), (2, [8])]] 2).flatten).map
        (fun e => e.1) := by
  constructor
  · rw [c2_merge_equivalence.2 (commitAll (initTablet 7 0)
      [(2, ⟨[((0 : Int), [5]), (2, [6])], []⟩),
       (3, ⟨[((1 : Int), [7]), (2, [8])], [0]⟩)]) 2 (by decide)]
    decide
  · exact (c2_merge_equivalence.1
      [[((0 : Int), [5]), (2, [6])], [((1 : Int), [7]), (2, [8])]] 2 3 1 2).1

end StarRocks
